import Mathlib

/-!
Verification development for the csync repository: a Lean embedding of the
pattern matcher (pkg/utils/ignore.go, internal/scanner), the directory
scanner, the Google Drive and pCloud sync clients, the file watcher's
debounce filter, and the daemon loop, together with theorems settling the
specification claims.

Strings are modelled as lists of characters (`GoStr`); paths use the
forward-slash separator (the scanner normalises with filepath.ToSlash, so
this models the POSIX build).
-/

namespace CSync

/-- Go strings are modelled as lists of characters. -/
abbrev GoStr := List Char

/-- Conversion from Lean string literals. -/
def gs (s : String) : GoStr := s.data

/-- strings.HasPrefix(s, p): s starts with p. -/
def hasPre : GoStr → GoStr → Bool
  | _, [] => true
  | [], _ :: _ => false
  | c :: s, d :: p => c == d && hasPre s p

/-- strings.HasSuffix(s, p): s ends with p. -/
def hasSuf (s p : GoStr) : Bool := hasPre s.reverse p.reverse

/-- strings.Contains(s, sub): sub occurs inside s. -/
def containsSub : GoStr → GoStr → Bool
  | s, sub =>
    hasPre s sub ||
      match s with
      | [] => false
      | _ :: t => containsSub t sub

/-- strings.TrimSuffix(s, "/"): drop one trailing slash if present. -/
def trimSufSlash (s : GoStr) : GoStr :=
  if hasSuf s ['/'] then s.dropLast else s

/-- strings.Split(s, "/"): split on every slash, preserving empty segments. -/
def splitSlash : GoStr → List GoStr
  | [] => [[]]
  | c :: t =>
    let r := splitSlash t
    if c == '/' then [] :: r
    else
      match r with
      | [] => [[c]]
      | h :: t' => (c :: h) :: t'

/-- Inverse of `splitSlash`: interleave segments with slashes. -/
def joinSlash : List GoStr → GoStr
  | [] => []
  | [x] => x
  | x :: xs => x ++ '/' :: joinSlash xs

/-- strings.Trim(s, "/"): strip leading and trailing slash characters. -/
def trimSlashes (s : GoStr) : GoStr :=
  ((s.dropWhile (· == '/')).reverse.dropWhile (· == '/')).reverse

/-- filepath.Base on slash-separated paths: last element of the path
(trailing slashes removed); "." for the empty path, "/" for all-slash. -/
def goBase (s : GoStr) : GoStr :=
  if s = [] then gs "."
  else
    let t := (s.reverse.dropWhile (· == '/')).reverse
    if t = [] then ['/']
    else (t.reverse.takeWhile (· != '/')).reverse

/-- filepath.Dir on slash-separated paths: everything before the final
slash ("." if the path has no slash, "/" if nothing remains).  This models
filepath.Dir on the already-clean relative paths produced by the walk (no
duplicate separators, so the Clean normalisation is the identity). -/
def goDir (s : GoStr) : GoStr :=
  if containsSub s ['/'] then
    let d := ((s.reverse.dropWhile (· != '/')).reverse).dropLast
    if d = [] then ['/'] else d
  else gs "."

/-- filepath.Join(a, b) on clean slash paths. -/
def joinPath (a b : GoStr) : GoStr :=
  if a = [] then b else if b = [] then a else a ++ '/' :: b

/-- Helper for the '*' case of `goMatch`: try the continuation `k` (matching
the rest of the pattern) on every suffix of the name reachable without
consuming a separator, mirroring the backtracking of filepath.Match. -/
def starScan (k : GoStr → Option Bool) : GoStr → Option Bool
  | [] => k []
  | c :: t =>
    match k (c :: t) with
    | none => none
    | some true => some true
    | some false => if c == '/' then some false else starScan k t

/-- filepath.Match for the glob features exercised by this repository:
a '*' matches any run of non-separator characters, '?' one non-separator
character, a backslash escapes the next character; none = ErrBadPattern.
Character classes ('[') appear nowhere in the repository's patterns and are
conservatively treated as a bad pattern. -/
def goMatch : GoStr → GoStr → Option Bool
  | [], s => if s.isEmpty then some true else some false
  | '*' :: p, s => starScan (goMatch p) s
  | '?' :: p, s =>
    match s with
    | [] => some false
    | c :: t => if c == '/' then some false else goMatch p t
  | '[' :: _, _ => none
  | '\\' :: c :: p, s =>
    match s with
    | [] => some false
    | d :: t => if c == d then goMatch p t else some false
  | '\\' :: [], _ => none
  | c :: p, s =>
    match s with
    | [] => some false
    | d :: t => if c == d then goMatch p t else some false

/-! ## pkg/utils/ignore.go -/

/-- strings.ReplaceAll(pattern, "*", ""). -/
def removeStars (p : GoStr) : GoStr := p.filter (· != '*')

/-- utils.matchPattern (pkg/utils/ignore.go): directory patterns (trailing
slash) match by prefix or exact equality; wildcard patterns are matched
against the path's final element with a substring fallback on pattern
error; plain patterns match exactly, as a "/pattern" suffix, or as a
"/pattern/" substring. -/
def matchPatternU (path pat : GoStr) : Bool :=
  if hasSuf pat ['/'] then
    let dirPattern := trimSufSlash pat
    hasPre path (dirPattern ++ ['/']) || path == dirPattern
  else if containsSub pat ['*'] then
    match goMatch pat (goBase path) with
    | some m => m
    | none => containsSub path (removeStars pat)
  else
    path == pat || hasSuf path ('/' :: pat) || containsSub path ('/' :: pat ++ ['/'])

/-- utils.ShouldIgnore: true if any pattern matches. -/
def shouldIgnoreU (path : GoStr) (pats : List GoStr) : Bool :=
  pats.any (fun p => matchPatternU path p)

/-! ## internal/scanner: Scanner.matchPattern -/

/-- The ancestor-directory loop at the end of Scanner.matchPattern,
iterating filepath.Dir while the directory is neither "." nor "/".  The
fuel argument only serves termination: `goDir` strictly shortens any string
containing a slash and maps everything else to ".", so `length + 2` fuel is
never exhausted. -/
def ancLoopF : Nat → GoStr → GoStr → Bool
  | 0, _, _ => false
  | n + 1, pat, dir =>
    if dir = gs "." || dir = gs "/" then false
    else
      (goMatch pat (goBase dir)).getD false || ancLoopF n pat (goDir dir)

/-- The ancestor loop entered with its full fuel. -/
def ancLoop (pat dir : GoStr) : Bool := ancLoopF (dir.length + 2) pat dir

/-- The body of Scanner.matchPattern after the directory-pattern handling:
exact match, then filepath.Match on the whole path, then a
"pattern/" prefix test, then the ancestor-directory loop. -/
def matchCoreS (pat path : GoStr) : Bool :=
  if path == pat then true
  else if (goMatch pat path).getD false then true
  else if hasPre path (pat ++ ['/']) then true
  else ancLoop pat (goDir path)

/-- Scanner.matchPattern (internal/scanner): a pattern with a trailing
slash only matches directories and is matched with the slash stripped;
filepath.ToSlash is the identity in this POSIX model. -/
def matchPatternS (pat path : GoStr) (isDir : Bool) : Bool :=
  if hasSuf pat ['/'] then
    if !isDir then false
    else matchCoreS (trimSufSlash pat) path
  else matchCoreS pat path

/-- Scanner.shouldIgnore. -/
def shouldIgnoreS (ig : List GoStr) (relPath : GoStr) (isDir : Bool) : Bool :=
  ig.any (fun p => matchPatternS p relPath isDir)

/-- Scanner.shouldInclude: empty include list or a directory always
passes; otherwise some include pattern must match. -/
def shouldIncludeS (inc : List GoStr) (relPath : GoStr) (isDir : Bool) : Bool :=
  if inc.isEmpty then true
  else if isDir then true
  else inc.any (fun p => matchPatternS p relPath isDir)

/-! ## Filesystem trees and filepath.Walk

A source tree is modelled as a tree of named nodes; `filepath.Walk` visits
a directory before its children, with children in the list order of the
tree (Go sorts directory entries lexically; the model takes the order from
the tree).  Sizes and modification times are node data. -/

mutual
inductive FsEntry where
  | file (name : GoStr) (size : Nat) (mtime : Int)
  | dir (name : GoStr) (size : Nat) (mtime : Int) (children : FsList)
inductive FsList where
  | nil
  | cons (e : FsEntry) (rest : FsList)
end

/-- Relative path of a child named `n` under relative directory `relDir`
(empty `relDir` denotes the walk root). -/
def relOf (relDir n : GoStr) : GoStr :=
  if relDir = [] then n else relDir ++ '/' :: n

/-! ## internal/scanner: Scanner.Scan -/

/-- scanner.FileInfo. -/
structure FileInfo where
  path : GoStr
  absolutePath : GoStr
  size : Nat
  modTime : Int
  isDir : Bool
  md5Hash : GoStr
deriving DecidableEq, Repr

/-- Result of one scan: recorded entries plus the warnings printed for
files whose MD5 could not be computed. -/
structure ScanOut where
  files : List FileInfo
  warnings : List GoStr
deriving DecidableEq, Repr

/-- Concatenation of scan outputs in walk order. -/
def ScanOut.app (a b : ScanOut) : ScanOut :=
  ⟨a.files ++ b.files, a.warnings ++ b.warnings⟩

mutual
/-- Scanner.Scan's walk callback at one node: apply the ignore patterns
(a matching directory prunes its subtree via filepath.SkipDir), apply the
include patterns (a non-included directory is still traversed, only not
recorded), record the entry, and hash non-directory non-empty files —
`hashFn` gives calculateMD5's outcome per absolute path, `none` being an
I/O failure, which is logged as a warning while the entry keeps an empty
hash. -/
def scanEntry (ig inc : List GoStr) (hashFn : GoStr → Option GoStr)
    (absDir relDir : GoStr) : FsEntry → ScanOut
  | .file n sz mt =>
    let rel := relOf relDir n
    let abs := absDir ++ '/' :: n
    if shouldIgnoreS ig rel false then ⟨[], []⟩
    else if !shouldIncludeS inc rel false then ⟨[], []⟩
    else if sz > 0 then
      match hashFn abs with
      | some h => ⟨[⟨rel, abs, sz, mt, false, h⟩], []⟩
      | none => ⟨[⟨rel, abs, sz, mt, false, []⟩], [abs]⟩
    else ⟨[⟨rel, abs, sz, mt, false, []⟩], []⟩
  | .dir n sz mt ch =>
    let rel := relOf relDir n
    let abs := absDir ++ '/' :: n
    if shouldIgnoreS ig rel true then ⟨[], []⟩
    else
      let rest := scanList ig inc hashFn abs rel ch
      if !shouldIncludeS inc rel true then rest
      else ScanOut.app ⟨[⟨rel, abs, sz, mt, true, []⟩], []⟩ rest

def scanList (ig inc : List GoStr) (hashFn : GoStr → Option GoStr)
    (absDir relDir : GoStr) : FsList → ScanOut
  | .nil => ⟨[], []⟩
  | .cons e r =>
    ScanOut.app (scanEntry ig inc hashFn absDir relDir e)
      (scanList ig inc hashFn absDir relDir r)
end

/-- Scanner.Scan over a root directory whose children form the tree (the
root itself is skipped by the walk callback via the relPath "." test). -/
def scanS (ig inc : List GoStr) (hashFn : GoStr → Option GoStr)
    (root : GoStr) (tree : FsList) : ScanOut :=
  scanList ig inc hashFn root [] tree

/-! ## Provider clients (gdrive and pcloud)

Client.Sync and Client.DryRun of both providers use the same filepath.Walk
callback: compute the path relative to the source, skip the root, prune on
the fixed built-in ignore list, handle directories and files, and return
any handler error — which aborts the whole walk.  The skeleton below
models that callback once; each client supplies its handlers. -/

/-- The ignore list hard-coded in Client.Sync and Client.DryRun of both
provider clients. -/
def builtinIgnore : List GoStr := [gs ".git/", gs ".DS_Store", gs "Thumbs.db"]

/-- Outcome of a client computation: final collaborator state, trace of
emitted effects, and the Go error result. -/
abbrev Res (σ ε α : Type) := σ × List ε × Except GoStr α

/-- Sequencing with Go's early-return error propagation: the effects of
both steps are kept in order and the second step runs only on success. -/
def rseq {σ ε α β : Type} (a : Res σ ε α) (f : α → σ → Res σ ε β) : Res σ ε β :=
  match a with
  | (s, tr, .error e) => (s, tr, .error e)
  | (s, tr, .ok x) =>
    match f x s with
    | (s', tr', r) => (s', tr ++ tr', r)

/-- One collaborator call: record the effect and its outcome. -/
def callE {σ ε α : Type} (c : ε) (r : σ × Except GoStr α) : Res σ ε α :=
  (r.1, [c], r.2)

mutual
/-- The common Sync/DryRun walk callback at one node: ignored directories
are pruned (filepath.SkipDir), ignored files skipped; otherwise the
directory handler runs before the children and the file handler per file,
any error aborting the walk. -/
def walkEntry {σ ε : Type} (hDir : GoStr → σ → Res σ ε Unit)
    (hFile : GoStr → Nat → σ → Res σ ε Unit) (relDir : GoStr) :
    FsEntry → σ → Res σ ε Unit
  | .file n sz _, s =>
    let rel := relOf relDir n
    if shouldIgnoreU rel builtinIgnore then (s, [], .ok ())
    else hFile rel sz s
  | .dir n _ _ ch, s =>
    let rel := relOf relDir n
    if shouldIgnoreU rel builtinIgnore then (s, [], .ok ())
    else rseq (hDir rel s) (fun _ s1 => walkListC hDir hFile rel ch s1)

def walkListC {σ ε : Type} (hDir : GoStr → σ → Res σ ε Unit)
    (hFile : GoStr → Nat → σ → Res σ ε Unit) (relDir : GoStr) :
    FsList → σ → Res σ ε Unit
  | .nil, s => (s, [], .ok ())
  | .cons e r, s =>
    rseq (walkEntry hDir hFile relDir e s)
      (fun _ s1 => walkListC hDir hFile relDir r s1)
end

/-- An entry surviving the built-in ignore filter. -/
inductive Surv where
  | sdir (rel : GoStr)
  | sfile (rel : GoStr) (size : Nat)
deriving DecidableEq, Repr

mutual
/-- Entries surviving the built-in ignore filter, in walk order. -/
def pruneEntry (relDir : GoStr) : FsEntry → List Surv
  | .file n sz _ =>
    let rel := relOf relDir n
    if shouldIgnoreU rel builtinIgnore then [] else [.sfile rel sz]
  | .dir n _ _ ch =>
    let rel := relOf relDir n
    if shouldIgnoreU rel builtinIgnore then []
    else .sdir rel :: pruneListC rel ch

def pruneListC (relDir : GoStr) : FsList → List Surv
  | .nil => []
  | .cons e r => pruneEntry relDir e ++ pruneListC relDir r
end

/-- Sequential processing of a survivor list: each entry's handler runs in
order, the first error aborting the rest. -/
def procSeq {σ ε : Type} (hDir : GoStr → σ → Res σ ε Unit)
    (hFile : GoStr → Nat → σ → Res σ ε Unit) :
    List Surv → σ → Res σ ε Unit
  | [], s => (s, [], .ok ())
  | .sdir rel :: rest, s =>
    rseq (hDir rel s) (fun _ s1 => procSeq hDir hFile rest s1)
  | .sfile rel sz :: rest, s =>
    rseq (hFile rel sz s) (fun _ s1 => procSeq hDir hFile rest s1)

/-! ## Google Drive client (Client of package gdrive) -/

/-- The sync-relevant fields of config.GoogleDriveConfig. -/
structure GDriveCfg where
  folderID : GoStr
  destinationPath : GoStr
deriving DecidableEq, Repr

/-- One Google Drive API interaction, as recorded in the trace. -/
inductive GCall where
  | findFolder (name parentID : GoStr)
  | createFolderOp (name parentID : GoStr)
  | findFile (name parentID : GoStr)
  | updateFile (fileID localPath : GoStr)
  | createFile (name parentID localPath : GoStr)
deriving DecidableEq, Repr

/-- Whether a Drive call mutates the remote store. -/
def GCall.isMutating : GCall → Bool
  | .createFolderOp _ _ => true
  | .updateFile _ _ => true
  | .createFile _ _ _ => true
  | _ => false

/-- Whether a Drive call transfers (uploads) the given local file. -/
def GCall.uploadsLocal (lp : GoStr) : GCall → Bool
  | .updateFile _ l => l == lp
  | .createFile _ _ l => l == lp
  | _ => false

/-- The Drive service as a stateful collaborator: each operation takes the
collaborator state and returns the new state and an outcome. -/
structure GOracle (σ : Type) where
  findFolder : GoStr → GoStr → σ → σ × Except GoStr (Option GoStr)
  createFolder : GoStr → GoStr → σ → σ × Except GoStr GoStr
  findFile : GoStr → GoStr → σ → σ × Except GoStr (Option GoStr)
  updateFile : GoStr → GoStr → σ → σ × Except GoStr Unit
  createFile : GoStr → GoStr → GoStr → σ → σ × Except GoStr Unit

/-- The starting parent ID: the configured folder ID, or "root". -/
def gRootID (cfg : GDriveCfg) : GoStr :=
  if cfg.folderID = [] then gs "root" else cfg.folderID

/-- The loop of Client.createFolder: for each non-empty path component,
look the folder up under the current parent and create it if absent,
descending into the found or created folder. -/
def gCreateFolderLoop {σ : Type} (o : GOracle σ) :
    List GoStr → GoStr → σ → Res σ GCall Unit
  | [], _, s => (s, [], .ok ())
  | part :: rest, parentID, s =>
    if part = [] then gCreateFolderLoop o rest parentID s
    else
      rseq (callE (.findFolder part parentID) (o.findFolder part parentID s))
        (fun r s1 =>
          match r with
          | some id => gCreateFolderLoop o rest id s1
          | none =>
            rseq (callE (.createFolderOp part parentID)
                (o.createFolder part parentID s1))
              (fun id s2 => gCreateFolderLoop o rest id s2))

/-- Client.createFolder (gdrive): split the folder path on the separator
and ensure each component exists. -/
def gCreateFolder {σ : Type} (o : GOracle σ) (cfg : GDriveCfg)
    (folderPath : GoStr) (s : σ) : Res σ GCall Unit :=
  gCreateFolderLoop o (splitSlash folderPath) (gRootID cfg) s

/-- The lookup loop of Client.getFolderID: descend through existing
folders only, failing when a component is not found. -/
def gGetFolderIDLoop {σ : Type} (o : GOracle σ) :
    List GoStr → GoStr → σ → Res σ GCall GoStr
  | [], parentID, s => (s, [], .ok parentID)
  | part :: rest, parentID, s =>
    if part = [] then gGetFolderIDLoop o rest parentID s
    else
      rseq (callE (.findFolder part parentID) (o.findFolder part parentID s))
        (fun r s1 =>
          match r with
          | some id => gGetFolderIDLoop o rest id s1
          | none => (s1, [], .error (gs "folder not found: " ++ part)))

/-- Client.getFolderID (gdrive): resolve a folder path (prefixed with the
configured destination path when set) to its Drive folder ID. -/
def gGetFolderID {σ : Type} (o : GOracle σ) (cfg : GDriveCfg)
    (folderPath : GoStr) (s : σ) : Res σ GCall GoStr :=
  let fp := if cfg.destinationPath ≠ [] then
      joinPath cfg.destinationPath folderPath
    else folderPath
  gGetFolderIDLoop o (splitSlash (trimSlashes fp)) (gRootID cfg) s

/-- Client.uploadFile (gdrive): ensure the parent folder structure exists
when the file sits in a subdirectory, resolve the parent ID, then check
whether the file already exists remotely and issue Files.Update for an
existing file or Files.Create for a new one — in both cases the file
content is uploaded; no content hash is ever consulted.  Opening and
stat-ing the local file succeed for files discovered by the walk. -/
def gUploadFile {σ : Type} (o : GOracle σ) (cfg : GDriveCfg)
    (localPath relPath : GoStr) (s : σ) : Res σ GCall Unit :=
  let d := goDir relPath
  rseq
    (if d ≠ gs "." then
      rseq (gCreateFolder o cfg d s) (fun _ s1 => gGetFolderID o cfg d s1)
    else (s, [], .ok (gRootID cfg)))
    (fun parentID s2 =>
      let fileName := goBase relPath
      rseq (callE (.findFile fileName parentID)
          (o.findFile fileName parentID s2))
        (fun r s3 =>
          match r with
          | some id => callE (.updateFile id localPath)
              (o.updateFile id localPath s3)
          | none => callE (.createFile fileName parentID localPath)
              (o.createFile fileName parentID localPath s3)))

/-- Client.Sync (gdrive): walk the source tree with the built-in ignore
list, creating folders for directories and uploading every file. -/
def gSync {σ : Type} (o : GOracle σ) (cfg : GDriveCfg) (root : GoStr)
    (tree : FsList) (s : σ) : Res σ GCall Unit :=
  walkListC (fun rel s1 => gCreateFolder o cfg rel s1)
    (fun rel _ s1 => gUploadFile o cfg (root ++ '/' :: rel) rel s1)
    [] tree s

/-! ## pCloud client (Client of package pcloud) -/

/-- The sync-relevant fields of config.PCloudConfig. -/
structure PCloudCfg where
  folderID : GoStr
  destinationPath : GoStr
deriving DecidableEq, Repr

/-- One entry of a pCloud listfolder response. -/
structure PItem where
  name : GoStr
  isfolder : Bool
  folderid : GoStr
deriving DecidableEq, Repr

/-- One pCloud API interaction, as recorded in the trace. -/
inductive PCall where
  | listFolder (folderID : GoStr)
  | createFolderOp (name folderID : GoStr)
  | uploadOp (folderID fileName localPath : GoStr)
deriving DecidableEq, Repr

/-- Whether a pCloud call mutates the remote store. -/
def PCall.isMutating : PCall → Bool
  | .createFolderOp _ _ => true
  | .uploadOp _ _ _ => true
  | _ => false

/-- Whether a pCloud call transfers (uploads) the given local file. -/
def PCall.uploadsLocal (lp : GoStr) : PCall → Bool
  | .uploadOp _ _ l => l == lp
  | _ => false

/-- The pCloud HTTP API as a stateful collaborator; failed requests and
non-zero result codes are both modelled as the error outcome. -/
structure POracle (σ : Type) where
  listFolder : GoStr → σ → σ × Except GoStr (List PItem)
  createFolder : GoStr → GoStr → σ → σ × Except GoStr GoStr
  upload : GoStr → GoStr → GoStr → σ → σ × Except GoStr Unit

/-- The starting parent folder ID: the configured ID, or "0" (root). -/
def pRootID (cfg : PCloudCfg) : GoStr :=
  if cfg.folderID = [] then gs "0" else cfg.folderID

/-- Client.findFolder (pcloud): list the parent folder and return the
folderid of the first entry with the wanted name that is a folder ("" —
here none — when absent). -/
def pFindFolder {σ : Type} (o : POracle σ) (name folderID : GoStr)
    (s : σ) : Res σ PCall (Option GoStr) :=
  rseq (callE (.listFolder folderID) (o.listFolder folderID s))
    (fun items s1 =>
      (s1, [],
        .ok ((items.find? (fun it => it.name == name && it.isfolder)).map
          (fun it => it.folderid))))

/-- The loop of Client.createFolder (pcloud): per non-empty component,
find the folder or create it, descending into the result. -/
def pCreateFolderLoop {σ : Type} (o : POracle σ) :
    List GoStr → GoStr → σ → Res σ PCall Unit
  | [], _, s => (s, [], .ok ())
  | part :: rest, parentID, s =>
    if part = [] then pCreateFolderLoop o rest parentID s
    else
      rseq (pFindFolder o part parentID s)
        (fun r s1 =>
          match r with
          | some id => pCreateFolderLoop o rest id s1
          | none =>
            rseq (callE (.createFolderOp part parentID)
                (o.createFolder part parentID s1))
              (fun id s2 => pCreateFolderLoop o rest id s2))

/-- Client.createFolder (pcloud). -/
def pCreateFolder {σ : Type} (o : POracle σ) (cfg : PCloudCfg)
    (folderPath : GoStr) (s : σ) : Res σ PCall Unit :=
  pCreateFolderLoop o (splitSlash folderPath) (pRootID cfg) s

/-- The lookup loop of Client.getFolderIDDirect (pcloud). -/
def pGetFolderIDLoop {σ : Type} (o : POracle σ) :
    List GoStr → GoStr → σ → Res σ PCall GoStr
  | [], parentID, s => (s, [], .ok parentID)
  | part :: rest, parentID, s =>
    if part = [] then pGetFolderIDLoop o rest parentID s
    else
      rseq (pFindFolder o part parentID s)
        (fun r s1 =>
          match r with
          | some id => pGetFolderIDLoop o rest id s1
          | none => (s1, [], .error (gs "folder not found: " ++ part)))

/-- Client.getFolderIDDirect (pcloud): resolve an already-combined path
to its folder ID, failing when a component is missing. -/
def pGetFolderIDDirect {σ : Type} (o : POracle σ) (cfg : PCloudCfg)
    (folderPath : GoStr) (s : σ) : Res σ PCall GoStr :=
  pGetFolderIDLoop o (splitSlash (trimSlashes folderPath)) (pRootID cfg) s

/-- Client.uploadFile (pcloud): combine the destination path with the
file's directory, create that folder structure, resolve its ID and upload
the file content there — unconditionally; no content hash is consulted. -/
def pUploadFile {σ : Type} (o : POracle σ) (cfg : PCloudCfg)
    (localPath remotePath : GoStr) (s : σ) : Res σ PCall Unit :=
  let d := goDir remotePath
  let targetPath :=
    if cfg.destinationPath ≠ [] then
      if d = gs "." then cfg.destinationPath
      else joinPath cfg.destinationPath d
    else d
  rseq (pCreateFolder o cfg targetPath s)
    (fun _ s1 =>
      rseq (pGetFolderIDDirect o cfg targetPath s1)
        (fun folderID s2 =>
          callE (.uploadOp folderID (goBase remotePath) localPath)
            (o.upload folderID (goBase remotePath) localPath s2)))

/-- Client.Sync (pcloud): the same walk as the gdrive client with the
pCloud handlers. -/
def pSync {σ : Type} (o : POracle σ) (cfg : PCloudCfg) (root : GoStr)
    (tree : FsList) (s : σ) : Res σ PCall Unit :=
  walkListC (fun rel s1 => pCreateFolder o cfg rel s1)
    (fun rel _ s1 => pUploadFile o cfg (root ++ '/' :: rel) rel s1)
    [] tree s

/-! ## Dry run -/

/-- One "[DRY RUN]" report line. -/
inductive DryAct where
  | folder (rel : GoStr)
  | upload (rel : GoStr) (size : Nat)
deriving DecidableEq, Repr

/-- Effects a dry-run pass may emit: a remote Drive call (gdrive model) or
a report line.  Client.DryRun emits only report lines. -/
inductive DryEff where
  | remote (c : GCall)
  | report (a : DryAct)
deriving DecidableEq, Repr

/-- Whether a dry-run effect is a remote-store interaction. -/
def DryEff.isRemote : DryEff → Bool
  | .remote _ => true
  | .report _ => false

/-- Client.DryRun (identical walk in both providers, differing only in
log formatting): walk the tree with the built-in ignore list and log the
intended action per surviving entry; no remote client is touched. -/
def clientDryRun (tree : FsList) : Res Unit DryEff Unit :=
  walkListC (fun rel s1 => (s1, [.report (.folder rel)], .ok ()))
    (fun rel sz s1 => (s1, [.report (.upload rel sz)], .ok ()))
    [] tree ()

/-- The report line a surviving entry produces in a dry run. -/
def survReport : Surv → DryEff
  | .sdir rel => .report (.folder rel)
  | .sfile rel sz => .report (.upload rel sz)

/-! ## Configuration and sync manager -/

/-- The sync-relevant fields of config.GeneralConfig, including the
configured FilterSet (ignore_patterns / include_patterns) and the retry
and concurrency knobs. -/
structure GeneralCfg where
  maxConcurrency : Nat
  retryAttempts : Nat
  ignorePatterns : List GoStr
  includePatterns : List GoStr
deriving DecidableEq, Repr

/-- config.Config. -/
structure Config where
  googleDrive : GDriveCfg
  pCloud : PCloudCfg
  general : GeneralCfg
deriving DecidableEq, Repr

/-- Manager.SyncToGoogleDrive (non-dry-run): the client is built from the
GoogleDrive section of the configuration only. -/
def syncToGoogleDrive {σ : Type} (cfg : Config) (o : GOracle σ)
    (root : GoStr) (tree : FsList) (s : σ) : Res σ GCall Unit :=
  gSync o cfg.googleDrive root tree s

/-- Manager.SyncToPCloud (non-dry-run). -/
def syncToPCloud {σ : Type} (cfg : Config) (o : POracle σ)
    (root : GoStr) (tree : FsList) (s : σ) : Res σ PCall Unit :=
  pSync o cfg.pCloud root tree s

/-! ## File watcher (internal/watcher): the debounce filter -/

/-- watcher.Operation (the cases produced by checkForChanges). -/
inductive WOp where
  | create
  | write
  | remove
deriving DecidableEq, Repr

/-- watcher.FileEvent; times are nanoseconds. -/
structure FileEvent where
  name : GoStr
  op : WOp
  time : Int
deriving DecidableEq, Repr

/-- Capacity of the buffered events channel (make(chan FileEvent, 100)). -/
def eventChanCap : Nat := 100

/-- The debounce window: 2 * time.Second, in nanoseconds. -/
def debounceNs : Int := 2000000000

/-- The watcher state touched by sendEvent: the per-path debounce map,
the buffered events channel, and the warnings logged for dropped events. -/
structure WatcherState where
  debounceMap : List (GoStr × Int)
  events : List FileEvent
  droppedLog : List GoStr
deriving DecidableEq, Repr

/-- Lookup in the debounce map. -/
def lookupTime : List (GoStr × Int) → GoStr → Option Int
  | [], _ => none
  | (k', v) :: t, k => if k' == k then some v else lookupTime t k

/-- Insert or replace in the debounce map. -/
def upsertTime : List (GoStr × Int) → GoStr → Int → List (GoStr × Int)
  | [], k, v => [(k, v)]
  | (k', v') :: t, k, v =>
    if k' == k then (k, v) :: t else (k', v') :: upsertTime t k v

/-- The non-suppressed path of sendEvent: record the event time in the
debounce map, then push onto the buffered channel, dropping the event with
a warning when the channel is full. -/
def pushEvent (st : WatcherState) (e : FileEvent) : WatcherState :=
  let st1 := { st with debounceMap := upsertTime st.debounceMap e.name e.time }
  if st1.events.length < eventChanCap then
    { st1 with events := st1.events ++ [e] }
  else
    { st1 with droppedLog := st1.droppedLog ++ [e.name] }

/-- FileWatcher.sendEvent: an event is suppressed when an event for the
same path was recorded within the debounce window.  The events produced by
checkForChanges carry time.Now() as their timestamp, so the event's own
time stands in for the current time of the time.Since comparison. -/
def sendEvent (st : WatcherState) (e : FileEvent) : WatcherState :=
  match lookupTime st.debounceMap e.name with
  | some last => if e.time - last < debounceNs then st else pushEvent st e
  | none => pushEvent st e

/-- The events currently in the channel for one path. -/
def eventsFor (name : GoStr) (evs : List FileEvent) : List FileEvent :=
  evs.filter (fun e => e.name == name)

/-! ## Daemon loop (internal/daemon) as a two-thread transition system

Daemon.Start is a sequential select loop (ticker, signals) calling
performSync inline; when watch mode is enabled it also launches
runFileWatcher as a separate goroutine, whose event loop likewise calls
performSync (after a fixed one-second sleep).  No lock, channel or flag
synchronises the two performSync call sites.  Each thread is sequential,
so it can begin a new pass only when its previous pass has returned; that
is the only mutual exclusion present. -/

/-- Daemon control state: whether watch mode is on, and whether each of
the two performSync call sites is currently inside a pass. -/
structure DaemonState where
  watchEnabled : Bool
  mainRunning : Bool
  watcherRunning : Bool
deriving DecidableEq, Repr

/-- Atomic steps of the daemon: the main loop begins a pass on a ticker
fire (or the initial sync) and later completes it; the watcher goroutine
begins a pass on a file event and later completes it (only when watch
mode started the goroutine).  Begin steps require only that the same
thread is not already inside a pass — its loop is sequential. -/
inductive DStep : DaemonState → DaemonState → Prop where
  | tickBegin (s : DaemonState) : s.mainRunning = false →
      DStep s { s with mainRunning := true }
  | tickEnd (s : DaemonState) : s.mainRunning = true →
      DStep s { s with mainRunning := false }
  | watchBegin (s : DaemonState) : s.watchEnabled = true →
      s.watcherRunning = false →
      DStep s { s with watcherRunning := true }
  | watchEnd (s : DaemonState) : s.watcherRunning = true →
      DStep s { s with watcherRunning := false }

/-- Daemon start state: no pass active. -/
def daemonInit (watch : Bool) : DaemonState := ⟨watch, false, false⟩

/-- Number of synchronization passes currently active. -/
def activePasses (s : DaemonState) : Nat :=
  (if s.mainRunning then 1 else 0) + (if s.watcherRunning then 1 else 0)

/-- Reachability in the daemon transition system. -/
def DReach (a b : DaemonState) : Prop := Relation.ReflTransGen DStep a b

/-! ## Helper lemmas: the walk as sequential processing of survivors -/

theorem rseq_of_ok {σ ε α β : Type} (s : σ) (tr : List ε) (x : α)
    (f : α → σ → Res σ ε β) :
    rseq (s, tr, Except.ok x) f =
      ((f x s).1, tr ++ (f x s).2.1, (f x s).2.2) := by
  simp only [rseq]

theorem rseq_congr {σ ε α β : Type} (a : Res σ ε α)
    (f g : α → σ → Res σ ε β) (h : ∀ x s, f x s = g x s) :
    rseq a f = rseq a g := by
  obtain ⟨s, tr, r⟩ := a
  cases r <;> simp only [rseq, h]

theorem rseq_assoc {σ ε α β γ : Type} (a : Res σ ε α)
    (f : α → σ → Res σ ε β) (g : β → σ → Res σ ε γ) :
    rseq (rseq a f) g = rseq a (fun x s => rseq (f x s) g) := by
  obtain ⟨s, tr, r⟩ := a
  cases r with
  | error e => simp only [rseq]
  | ok x =>
    simp only [rseq]
    obtain ⟨s', tr', r'⟩ := f x s
    cases r' with
    | error e => simp only [rseq]
    | ok y =>
      simp only [rseq]
      obtain ⟨s'', tr'', r''⟩ := g y s'
      simp [List.append_assoc]

theorem procSeq_append {σ ε : Type} (hDir : GoStr → σ → Res σ ε Unit)
    (hFile : GoStr → Nat → σ → Res σ ε Unit) (l₁ l₂ : List Surv) (s : σ) :
    procSeq hDir hFile (l₁ ++ l₂) s =
      rseq (procSeq hDir hFile l₁ s) (fun _ s1 => procSeq hDir hFile l₂ s1) := by
  induction l₁ generalizing s with
  | nil =>
    simp only [List.nil_append, procSeq, rseq]
  | cons v rest ih =>
    cases v with
    | sdir rel =>
      simp only [List.cons_append, procSeq, rseq_assoc]
      exact rseq_congr _ _ _ (fun x s1 => ih s1)
    | sfile rel sz =>
      simp only [List.cons_append, procSeq, rseq_assoc]
      exact rseq_congr _ _ _ (fun x s1 => ih s1)

mutual
theorem walkEntry_eq_procSeq {σ ε : Type} (hDir : GoStr → σ → Res σ ε Unit)
    (hFile : GoStr → Nat → σ → Res σ ε Unit) (relDir : GoStr)
    (e : FsEntry) (s : σ) :
    walkEntry hDir hFile relDir e s =
      procSeq hDir hFile (pruneEntry relDir e) s := by
  cases e with
  | file n sz mt =>
    cases hig : shouldIgnoreU (relOf relDir n) builtinIgnore with
    | true => simp [walkEntry, pruneEntry, hig, procSeq]
    | false =>
      simp only [walkEntry, pruneEntry, hig, Bool.false_eq_true, if_false,
        procSeq]
      obtain ⟨s', tr', r'⟩ := hFile (relOf relDir n) sz s
      cases r' <;> simp [rseq, procSeq]
  | dir n sz mt ch =>
    cases hig : shouldIgnoreU (relOf relDir n) builtinIgnore with
    | true => simp [walkEntry, pruneEntry, hig, procSeq]
    | false =>
      simp only [walkEntry, pruneEntry, hig, Bool.false_eq_true, if_false,
        procSeq]
      exact rseq_congr _ _ _
        (fun x s1 => walkListC_eq_procSeq hDir hFile (relOf relDir n) ch s1)

theorem walkListC_eq_procSeq {σ ε : Type} (hDir : GoStr → σ → Res σ ε Unit)
    (hFile : GoStr → Nat → σ → Res σ ε Unit) (relDir : GoStr)
    (l : FsList) (s : σ) :
    walkListC hDir hFile relDir l s =
      procSeq hDir hFile (pruneListC relDir l) s := by
  cases l with
  | nil => simp [walkListC, pruneListC, procSeq]
  | cons e r =>
    simp only [walkListC, pruneListC, procSeq_append]
    rw [walkEntry_eq_procSeq hDir hFile relDir e s]
    exact rseq_congr _ _ _
      (fun x s1 => walkListC_eq_procSeq hDir hFile relDir r s1)
end

/-! ## Concrete scenarios used by the claim theorems -/

/-- A single file a.txt whose remote counterpart exists: findFile returns
an existing file ID and every operation succeeds. -/
def c1Tree : FsList := .cons (.file (gs "a.txt") 2 5) .nil

/-- The MD5 the scanner would compute locally for a.txt. -/
def c1LocalHash : GoStr := gs "0cc175b9c0f1b6a831c399e269772661"

/-- The content hash the remote store reports for the existing object —
identical to the local one (the file content is unchanged; only its
modification time moved).  The sync client has no operation that reads
it. -/
def c1RemoteHash : GoStr := gs "0cc175b9c0f1b6a831c399e269772661"

def c1Oracle : GOracle Unit :=
  { findFolder := fun _ _ s => (s, .ok none)
    createFolder := fun _ _ s => (s, .ok (gs "fid"))
    findFile := fun _ _ s => (s, .ok (some (gs "id1")))
    updateFile := fun _ _ s => (s, .ok ())
    createFile := fun _ _ _ s => (s, .ok ()) }

/-- C1: the claim is REFUTED by the code.  For a file whose mapped remote
object exists and whose remote content hash equals the local one, the
gdrive Client.Sync pass still transfers the file: uploadFile never
consults any hash and issues Files.Update (an upload) for every existing
remote file, so a merely-touched file produces one transfer, not zero.
This theorem evaluates the embedded pass at that failing input: the remote
hash equals the local hash, yet the trace ends in a mutating updateFile
upload and no decision ever skips the file. -/
theorem c1_touched_file_is_reuploaded :
    c1RemoteHash = c1LocalHash ∧
    gSync c1Oracle ⟨[], []⟩ (gs "/src") c1Tree () =
      ((), [.findFile (gs "a.txt") (gs "root"),
            .updateFile (gs "id1") (gs "/src/a.txt")], .ok ()) ∧
    ((gSync c1Oracle ⟨[], []⟩ (gs "/src") c1Tree ()).2.1.filter
      GCall.isMutating) = [.updateFile (gs "id1") (gs "/src/a.txt")] :=
  ⟨rfl, rfl, rfl⟩

/-- Three files at the sync root; uploading f2.txt always fails. -/
def c2Tree : FsList :=
  .cons (.file (gs "f1.txt") 1 0)
    (.cons (.file (gs "f2.txt") 1 0)
      (.cons (.file (gs "f3.txt") 1 0) .nil))

def c2Oracle : GOracle Unit :=
  { findFolder := fun _ _ s => (s, .ok none)
    createFolder := fun _ _ s => (s, .ok (gs "fid"))
    findFile := fun _ _ s => (s, .ok none)
    updateFile := fun _ _ s => (s, .ok ())
    createFile := fun n _ _ s =>
      (s, if n = gs "f2.txt" then .error (gs "boom") else .ok ()) }

/-- The pCloud collaborator for the same scenario: the root listing knows
the "." folder, and uploading f2.txt always fails. -/
def c2POracle : POracle Unit :=
  { listFolder := fun _ s => (s, .ok [⟨gs ".", true, gs "5"⟩])
    createFolder := fun _ _ s => (s, .ok (gs "6"))
    upload := fun _ fn _ s =>
      (s, if fn = gs "f2.txt" then .error (gs "boom") else .ok ()) }

/-- C2 counterexample: with three entries where the second always fails,
NEITHER provider client's Sync pass completes a full pass — filepath.Walk
propagates the callback error in both, so f3.txt is never processed and
the failure becomes the error of the whole pass instead of a recorded
per-entry failure. -/
theorem c2_failing_entry_aborts_concrete :
    gSync c2Oracle ⟨[], []⟩ (gs "/src") c2Tree () =
      ((), [.findFile (gs "f1.txt") (gs "root"),
            .createFile (gs "f1.txt") (gs "root") (gs "/src/f1.txt"),
            .findFile (gs "f2.txt") (gs "root"),
            .createFile (gs "f2.txt") (gs "root") (gs "/src/f2.txt")],
        .error (gs "boom")) ∧
    ((gSync c2Oracle ⟨[], []⟩ (gs "/src") c2Tree ()).2.1.filter
      (GCall.uploadsLocal (gs "/src/f3.txt"))) = [] ∧
    pSync c2POracle ⟨[], []⟩ (gs "/src") c2Tree () =
      ((), [.listFolder (gs "0"), .listFolder (gs "0"),
            .uploadOp (gs "5") (gs "f1.txt") (gs "/src/f1.txt"),
            .listFolder (gs "0"), .listFolder (gs "0"),
            .uploadOp (gs "5") (gs "f2.txt") (gs "/src/f2.txt")],
        .error (gs "boom")) ∧
    ((pSync c2POracle ⟨[], []⟩ (gs "/src") c2Tree ()).2.1.filter
      (PCall.uploadsLocal (gs "/src/f3.txt"))) = [] :=
  ⟨rfl, rfl, rfl, rfl⟩

/-- C2 as amended: entry-level failures DO abort a pass, in both provider
clients.  Each client processes the surviving entries strictly in walk
order; when the entries split as a successfully processed prefix followed
by an entry whose handler fails, the pass returns that entry's error, the
trace stops with its calls, and nothing after it is processed; no
aggregation into a SyncResult exists.  The first conjunct states this for
the Google Drive client, the second for the pCloud client. -/
theorem c2_first_failure_is_pass_error {σ σ' : Type} (o : GOracle σ)
    (oP : POracle σ') (cfg : GDriveCfg) (cfgP : PCloudCfg)
    (root rootP : GoStr) (tree treeP : FsList) (s : σ) (sP : σ')
    (l₁ l₂ : List Surv) (bad : GoStr) (sz : Nat) (s₁ s₂ : σ)
    (tr₁ tr₂ : List GCall) (e : GoStr)
    (m₁ m₂ : List Surv) (badP : GoStr) (szP : Nat) (sP₁ sP₂ : σ')
    (trP₁ trP₂ : List PCall) (eP : GoStr)
    (hsplit : pruneListC [] tree = l₁ ++ Surv.sfile bad sz :: l₂)
    (h₁ : procSeq (fun rel s1 => gCreateFolder o cfg rel s1)
      (fun rel _ s1 => gUploadFile o cfg (root ++ '/' :: rel) rel s1) l₁ s =
      (s₁, tr₁, .ok ()))
    (h₂ : gUploadFile o cfg (root ++ '/' :: bad) bad s₁ =
      (s₂, tr₂, .error e))
    (hsplitP : pruneListC [] treeP = m₁ ++ Surv.sfile badP szP :: m₂)
    (hP₁ : procSeq (fun rel s1 => pCreateFolder oP cfgP rel s1)
      (fun rel _ s1 => pUploadFile oP cfgP (rootP ++ '/' :: rel) rel s1)
      m₁ sP = (sP₁, trP₁, .ok ()))
    (hP₂ : pUploadFile oP cfgP (rootP ++ '/' :: badP) badP sP₁ =
      (sP₂, trP₂, .error eP)) :
    gSync o cfg root tree s = (s₂, tr₁ ++ tr₂, .error e) ∧
    pSync oP cfgP rootP treeP sP = (sP₂, trP₁ ++ trP₂, .error eP) := by
  constructor
  · unfold gSync
    rw [walkListC_eq_procSeq, hsplit, procSeq_append, h₁, rseq_of_ok]
    simp only [procSeq, h₂, rseq]
  · unfold pSync
    rw [walkListC_eq_procSeq, hsplitP, procSeq_append, hP₁, rseq_of_ok]
    simp only [procSeq, hP₂, rseq]

/-- Witness for the amended C2 theorem at the three-file scenario, for
both provider clients. -/
theorem c2_first_failure_is_pass_error_witness :
    gSync c2Oracle ⟨[], []⟩ (gs "/src") c2Tree () =
      ((), ([.findFile (gs "f1.txt") (gs "root"),
             .createFile (gs "f1.txt") (gs "root") (gs "/src/f1.txt")] ++
            [.findFile (gs "f2.txt") (gs "root"),
             .createFile (gs "f2.txt") (gs "root") (gs "/src/f2.txt")]),
        .error (gs "boom")) ∧
    pSync c2POracle ⟨[], []⟩ (gs "/src") c2Tree () =
      ((), ([.listFolder (gs "0"), .listFolder (gs "0"),
             .uploadOp (gs "5") (gs "f1.txt") (gs "/src/f1.txt")] ++
            [.listFolder (gs "0"), .listFolder (gs "0"),
             .uploadOp (gs "5") (gs "f2.txt") (gs "/src/f2.txt")]),
        .error (gs "boom")) :=
  c2_first_failure_is_pass_error c2Oracle c2POracle ⟨[], []⟩ ⟨[], []⟩
    (gs "/src") (gs "/src") c2Tree c2Tree () ()
    [.sfile (gs "f1.txt") 1] [.sfile (gs "f3.txt") 1] (gs "f2.txt") 1
    () () _ _ (gs "boom")
    [.sfile (gs "f1.txt") 1] [.sfile (gs "f3.txt") 1] (gs "f2.txt") 1
    () () _ _ (gs "boom") rfl rfl rfl rfl rfl rfl

/-- A single file whose upload fails with a transient network error. -/
def c3Tree : FsList := .cons (.file (gs "f1.txt") 4 0) .nil

def c3Oracle : GOracle Unit :=
  { findFolder := fun _ _ s => (s, .ok none)
    createFolder := fun _ _ s => (s, .ok (gs "fid"))
    findFile := fun _ _ s => (s, .ok none)
    updateFile := fun _ _ s => (s, .ok ())
    createFile := fun _ _ _ s => (s, .error (gs "network timeout")) }

/-- The default configuration: retry_attempts = 3. -/
def c3Config : Config :=
  { googleDrive := ⟨[], []⟩
    pCloud := ⟨[], []⟩
    general :=
      { maxConcurrency := 5
        retryAttempts := 3
        ignorePatterns := [gs ".git/", gs ".DS_Store", gs "Thumbs.db",
          gs "*.tmp", gs "*.temp"]
        includePatterns := [] } }

/-- C3: the claim is REFUTED by the code.  No retry logic exists anywhere
in the sync path: with retry_attempts = 3 configured, a transfer failing
with a transient network error is attempted exactly once — the trace holds
a single upload attempt for the file — and the error immediately becomes
the pass error; the configured retryAttempts value is never read. -/
theorem c3_transient_failure_not_retried :
    syncToGoogleDrive c3Config c3Oracle (gs "/src") c3Tree () =
      ((), [.findFile (gs "f1.txt") (gs "root"),
            .createFile (gs "f1.txt") (gs "root") (gs "/src/f1.txt")],
        .error (gs "network timeout")) ∧
    ((syncToGoogleDrive c3Config c3Oracle (gs "/src") c3Tree ()).2.1.filter
      (GCall.uploadsLocal (gs "/src/f1.txt"))).length = 1 :=
  ⟨rfl, rfl⟩

/-! ## C4: dry run -/

theorem procSeq_report (l : List Surv) (s : Unit) :
    procSeq (σ := Unit) (ε := DryEff)
      (fun rel s1 => (s1, [.report (.folder rel)], .ok ()))
      (fun rel sz s1 => (s1, [.report (.upload rel sz)], .ok ())) l s =
      ((), l.map survReport, .ok ()) := by
  induction l with
  | nil => simp [procSeq]
  | cons v rest ih =>
    cases v with
    | sdir rel => simp [procSeq, rseq, ih, survReport]
    | sfile rel sz => simp [procSeq, rseq, ih, survReport]

/-- C4: a dry-run pass makes zero mutating calls to the remote store.
Client.DryRun (whose walk callback is identical in both providers) only
reports: its effect trace is exactly one report line per surviving entry
of the walk — a folder line per directory and an upload line per file —
and contains no remote-store interaction at all, mutating or otherwise;
the pass always succeeds. -/
theorem c4_dry_run_only_reports (tree : FsList) :
    clientDryRun tree = ((), (pruneListC [] tree).map survReport, .ok ()) ∧
    ((clientDryRun tree).2.1.filter DryEff.isRemote) = [] := by
  have h : clientDryRun tree =
      ((), (pruneListC [] tree).map survReport, .ok ()) := by
    unfold clientDryRun
    rw [walkListC_eq_procSeq, procSeq_report]
  refine ⟨h, ?_⟩
  rw [h]
  simp only [List.filter_eq_nil_iff, List.mem_map]
  rintro a ⟨v, hv, rfl⟩
  cases v <;> simp [survReport, DryEff.isRemote]

/-! ## C10: only the built-in ignore list governs a pass -/

/-- A Drive collaborator on which every operation of the pass succeeds
(folder lookups find a folder, file lookups and both upload forms
succeed). -/
def GFriendly {σ : Type} (o : GOracle σ) : Prop :=
  (∀ n p s, ∃ id, (o.findFolder n p s).2 = .ok (some id)) ∧
  (∀ n p s, ∃ r, (o.findFile n p s).2 = .ok r) ∧
  (∀ id l s, (o.updateFile id l s).2 = .ok ()) ∧
  (∀ n p l s, (o.createFile n p l s).2 = .ok ())

theorem gCreateFolderLoop_ok {σ : Type} (o : GOracle σ)
    (h : ∀ n p s, ∃ id, (o.findFolder n p s).2 = .ok (some id)) :
    ∀ (parts : List GoStr) (pid : GoStr) (s : σ),
      ∃ s' tr, gCreateFolderLoop o parts pid s = (s', tr, .ok ()) := by
  intro parts
  induction parts with
  | nil => exact fun pid s => ⟨s, [], rfl⟩
  | cons part rest ih =>
    intro pid s
    by_cases hp : part = []
    · simpa [gCreateFolderLoop, hp] using ih pid s
    · obtain ⟨id, hid⟩ := h part pid s
      cases hff : o.findFolder part pid s with
      | mk st1 r =>
        have hid' : r = .ok (some id) := by rw [hff] at hid; exact hid
        obtain ⟨s', tr', hrec⟩ := ih id st1
        exact ⟨s', GCall.findFolder part pid :: tr',
          by simp [gCreateFolderLoop, hp, callE, hff, hid', rseq, hrec]⟩

theorem gGetFolderIDLoop_ok {σ : Type} (o : GOracle σ)
    (h : ∀ n p s, ∃ id, (o.findFolder n p s).2 = .ok (some id)) :
    ∀ (parts : List GoStr) (pid : GoStr) (s : σ),
      ∃ s' tr id', gGetFolderIDLoop o parts pid s = (s', tr, .ok id') := by
  intro parts
  induction parts with
  | nil => exact fun pid s => ⟨s, [], pid, rfl⟩
  | cons part rest ih =>
    intro pid s
    by_cases hp : part = []
    · simpa [gGetFolderIDLoop, hp] using ih pid s
    · obtain ⟨id, hid⟩ := h part pid s
      cases hff : o.findFolder part pid s with
      | mk st1 r =>
        have hid' : r = .ok (some id) := by rw [hff] at hid; exact hid
        obtain ⟨s', tr', id', hrec⟩ := ih id st1
        exact ⟨s', GCall.findFolder part pid :: tr', id',
          by simp [gGetFolderIDLoop, hp, callE, hff, hid', rseq, hrec]⟩

theorem gUploadFile_ok {σ : Type} (o : GOracle σ) (hG : GFriendly o)
    (cfg : GDriveCfg) (lp rel : GoStr) (s : σ) :
    ∃ s' tr, gUploadFile o cfg lp rel s = (s', tr, .ok ()) ∧
      ∃ c, c ∈ tr ∧ GCall.uploadsLocal lp c = true := by
  obtain ⟨hFF, hFi, hUp, hCr⟩ := hG
  -- the parent-resolution prefix always succeeds
  have hPre : ∃ sA trA pidA,
      (if goDir rel ≠ gs "." then
        rseq (gCreateFolder o cfg (goDir rel) s)
          (fun _ s1 => gGetFolderID o cfg (goDir rel) s1)
      else (s, [], .ok (gRootID cfg))) = (sA, trA, .ok pidA) := by
    by_cases hd : goDir rel = gs "."
    · exact ⟨s, [], gRootID cfg, by simp [hd]⟩
    · obtain ⟨s1, tr1, h1⟩ :=
        gCreateFolderLoop_ok o hFF (splitSlash (goDir rel)) (gRootID cfg) s
      obtain ⟨s2, tr2, id2, h2⟩ := gGetFolderIDLoop_ok o hFF
        (splitSlash (trimSlashes (if cfg.destinationPath ≠ [] then
          joinPath cfg.destinationPath (goDir rel) else goDir rel)))
        (gRootID cfg) s1
      refine ⟨s2, tr1 ++ tr2, id2, ?_⟩
      rw [if_pos hd]
      simp only [gCreateFolder]
      rw [h1, rseq_of_ok]
      simp only [gGetFolderID]
      rw [h2]
  obtain ⟨sA, trA, pidA, hA⟩ := hPre
  obtain ⟨r, hr⟩ := hFi (goBase rel) pidA sA
  cases hff : o.findFile (goBase rel) pidA sA with
  | mk st1 rv =>
    have hrv : rv = .ok r := by rw [hff] at hr; exact hr
    cases r with
    | some id =>
      cases hu : o.updateFile id lp st1 with
      | mk stU rU =>
        have hrU : rU = .ok () := by
          have := hUp id lp st1; rw [hu] at this; exact this
        refine ⟨stU, trA ++ [.findFile (goBase rel) pidA,
          .updateFile id lp], ?_, ⟨.updateFile id lp, by simp, by
            simp [GCall.uploadsLocal]⟩⟩
        simp only [gUploadFile]
        rw [hA, rseq_of_ok]
        simp [callE, hff, hrv, rseq, hu, hrU]
    | none =>
      cases hc : o.createFile (goBase rel) pidA lp st1 with
      | mk stC rC =>
        have hrC : rC = .ok () := by
          have := hCr (goBase rel) pidA lp st1; rw [hc] at this; exact this
        refine ⟨stC, trA ++ [.findFile (goBase rel) pidA,
          .createFile (goBase rel) pidA lp], ?_,
          ⟨.createFile (goBase rel) pidA lp, by simp, by
            simp [GCall.uploadsLocal]⟩⟩
        simp only [gUploadFile]
        rw [hA, rseq_of_ok]
        simp [callE, hff, hrv, rseq, hc, hrC]

/-- A pCloud collaborator on which every operation of the pass succeeds
(folder lookups find a folder, uploads succeed). -/
def PFriendly {σ : Type} (o : POracle σ) : Prop :=
  (∀ n fid s, ∃ id, (pFindFolder o n fid s).2.2 = .ok (some id)) ∧
  (∀ fid fn lp s, (o.upload fid fn lp s).2 = .ok ())

theorem pCreateFolderLoop_ok {σ : Type} (o : POracle σ)
    (h : ∀ n fid s, ∃ id, (pFindFolder o n fid s).2.2 = .ok (some id)) :
    ∀ (parts : List GoStr) (pid : GoStr) (s : σ),
      ∃ s' tr, pCreateFolderLoop o parts pid s = (s', tr, .ok ()) := by
  intro parts
  induction parts with
  | nil => exact fun pid s => ⟨s, [], rfl⟩
  | cons part rest ih =>
    intro pid s
    by_cases hp : part = []
    · simpa [pCreateFolderLoop, hp] using ih pid s
    · obtain ⟨id, hid⟩ := h part pid s
      cases hff : pFindFolder o part pid s with
      | mk st1 r2 =>
        obtain ⟨tr1, rv⟩ := r2
        have hid' : rv = .ok (some id) := by rw [hff] at hid; exact hid
        obtain ⟨s', tr', hrec⟩ := ih id st1
        exact ⟨s', tr1 ++ tr',
          by simp [pCreateFolderLoop, hp, hff, hid', rseq, hrec]⟩

theorem pGetFolderIDLoop_ok {σ : Type} (o : POracle σ)
    (h : ∀ n fid s, ∃ id, (pFindFolder o n fid s).2.2 = .ok (some id)) :
    ∀ (parts : List GoStr) (pid : GoStr) (s : σ),
      ∃ s' tr id', pGetFolderIDLoop o parts pid s = (s', tr, .ok id') := by
  intro parts
  induction parts with
  | nil => exact fun pid s => ⟨s, [], pid, rfl⟩
  | cons part rest ih =>
    intro pid s
    by_cases hp : part = []
    · simpa [pGetFolderIDLoop, hp] using ih pid s
    · obtain ⟨id, hid⟩ := h part pid s
      cases hff : pFindFolder o part pid s with
      | mk st1 r2 =>
        obtain ⟨tr1, rv⟩ := r2
        have hid' : rv = .ok (some id) := by rw [hff] at hid; exact hid
        obtain ⟨s', tr', id', hrec⟩ := ih id st1
        exact ⟨s', tr1 ++ tr', id',
          by simp [pGetFolderIDLoop, hp, hff, hid', rseq, hrec]⟩

theorem pUploadFile_ok {σ : Type} (o : POracle σ) (hP : PFriendly o)
    (cfg : PCloudCfg) (lp rel : GoStr) (s : σ) :
    ∃ s' tr, pUploadFile o cfg lp rel s = (s', tr, .ok ()) ∧
      ∃ c, c ∈ tr ∧ PCall.uploadsLocal lp c = true := by
  obtain ⟨hFF, hUp⟩ := hP
  set targetPath :=
    if cfg.destinationPath ≠ [] then
      if goDir rel = gs "." then cfg.destinationPath
      else joinPath cfg.destinationPath (goDir rel)
    else goDir rel with htp
  obtain ⟨s1, tr1, h1⟩ :=
    pCreateFolderLoop_ok o hFF (splitSlash targetPath) (pRootID cfg) s
  obtain ⟨s2, tr2, id2, h2⟩ := pGetFolderIDLoop_ok o hFF
    (splitSlash (trimSlashes targetPath)) (pRootID cfg) s1
  cases hu : o.upload id2 (goBase rel) lp s2 with
  | mk stU rU =>
    have hrU : rU = .ok () := by
      have := hUp id2 (goBase rel) lp s2; rw [hu] at this; exact this
    refine ⟨stU, tr1 ++ (tr2 ++ [.uploadOp id2 (goBase rel) lp]), ?_,
      ⟨.uploadOp id2 (goBase rel) lp, by simp, by simp [PCall.uploadsLocal]⟩⟩
    simp only [pUploadFile, pCreateFolder, pGetFolderIDDirect, ← htp]
    rw [h1, rseq_of_ok, h2, rseq_of_ok]
    simp [callE, hu, hrU]

/-- Sequential processing with handlers that never fail on the list's own
entries completes the whole survivor list and, for every surviving file,
the trace contains the call its handler guarantees. -/
theorem procSeq_transfers {σ ε : Type} (hDir : GoStr → σ → Res σ ε Unit)
    (hFile : GoStr → Nat → σ → Res σ ε Unit) (Q : GoStr → ε → Bool) :
    ∀ (l : List Surv) (s : σ),
      (∀ rel s', Surv.sdir rel ∈ l → (hDir rel s').2.2 = .ok ()) →
      (∀ rel sz s', Surv.sfile rel sz ∈ l → (hFile rel sz s').2.2 = .ok () ∧
        ∃ c ∈ (hFile rel sz s').2.1, Q rel c = true) →
      (procSeq hDir hFile l s).2.2 = .ok () ∧
      ∀ rel sz, Surv.sfile rel sz ∈ l →
        ∃ c ∈ (procSeq hDir hFile l s).2.1, Q rel c = true := by
  intro l
  induction l with
  | nil => exact fun s _ _ => ⟨rfl, by simp⟩
  | cons v rest ih =>
    intro s hD hF
    cases v with
    | sdir rel =>
      cases hh : hDir rel s with
      | mk s1 p =>
        obtain ⟨tr1, r1⟩ := p
        have hr1 : r1 = .ok () := by
          have := hD rel s (by simp); rw [hh] at this; exact this
        subst hr1
        obtain ⟨ihok, ihmem⟩ := ih s1
          (fun rel' s' hm => hD rel' s' (by simp [hm]))
          (fun rel' sz' s' hm => hF rel' sz' s' (by simp [hm]))
        constructor
        · simp [procSeq, hh, rseq_of_ok, ihok]
        · intro rel' sz' hmem
          simp only [List.mem_cons] at hmem
          rcases hmem with hmem | hmem
          · exact absurd hmem (by simp)
          · obtain ⟨c, hc, hq⟩ := ihmem rel' sz' hmem
            exact ⟨c, by simp [procSeq, hh, rseq_of_ok, hc], hq⟩
    | sfile rel sz =>
      cases hh : hFile rel sz s with
      | mk s1 p =>
        obtain ⟨tr1, r1⟩ := p
        obtain ⟨hok1, c0, hc0, hq0⟩ := hF rel sz s (by simp)
        have hr1 : r1 = .ok () := by rw [hh] at hok1; exact hok1
        subst hr1
        have hc0' : c0 ∈ tr1 := by rw [hh] at hc0; exact hc0
        obtain ⟨ihok, ihmem⟩ := ih s1
          (fun rel' s' hm => hD rel' s' (by simp [hm]))
          (fun rel' sz' s' hm => hF rel' sz' s' (by simp [hm]))
        constructor
        · simp [procSeq, hh, rseq_of_ok, ihok]
        · intro rel' sz' hmem
          simp only [List.mem_cons] at hmem
          rcases hmem with hmem | hmem
          · injection hmem with h1 h2
            subst h1
            exact ⟨c0, by simp [procSeq, hh, rseq_of_ok, hc0'], hq0⟩
          · obtain ⟨c, hc, hq⟩ := ihmem rel' sz' hmem
            exact ⟨c, by simp [procSeq, hh, rseq_of_ok, hc], hq⟩

/-- A configuration with its FilterSet (ignore and include patterns)
replaced. -/
def withPatterns (cfg : Config) (ig inc : List GoStr) : Config :=
  { cfg with
    general :=
      { cfg.general with ignorePatterns := ig, includePatterns := inc } }

/-- C10: both provider passes filter paths with the fixed built-in ignore
list only.  First two conjuncts: the configured ignore_patterns and
include_patterns of the FilterSet are never consulted — replacing them by
anything leaves both Sync passes unchanged (DryRun does not read the
configuration at all, as its model takes none).  Third conjunct: the
processed entries are exactly the walk survivors of the built-in list
[".git/", ".DS_Store", "Thumbs.db"].  Remaining conjuncts: when the remote
operations succeed, every file that does not match that fixed list is
transferred, by both clients, regardless of the configuration. -/
theorem c10_only_builtin_ignore_list {σ σ' : Type} (cfg : Config)
    (ig inc : List GoStr) (o : GOracle σ) (oP : POracle σ')
    (root : GoStr) (tree : FsList) (s : σ) (sP : σ')
    (hG : GFriendly o)
    (hPd : ∀ rel s', Surv.sdir rel ∈ pruneListC [] tree →
      (pCreateFolder oP cfg.pCloud rel s').2.2 = .ok ())
    (hPf : ∀ rel sz s', Surv.sfile rel sz ∈ pruneListC [] tree →
      (pUploadFile oP cfg.pCloud (root ++ '/' :: rel) rel s').2.2 = .ok () ∧
      ∃ c ∈ (pUploadFile oP cfg.pCloud (root ++ '/' :: rel) rel s').2.1,
        PCall.uploadsLocal (root ++ '/' :: rel) c = true) :
    (syncToGoogleDrive (withPatterns cfg ig inc) o root tree s =
      syncToGoogleDrive cfg o root tree s) ∧
    (syncToPCloud (withPatterns cfg ig inc) oP root tree sP =
      syncToPCloud cfg oP root tree sP) ∧
    (gSync o cfg.googleDrive root tree s =
      procSeq (fun rel s1 => gCreateFolder o cfg.googleDrive rel s1)
        (fun rel _ s1 =>
          gUploadFile o cfg.googleDrive (root ++ '/' :: rel) rel s1)
        (pruneListC [] tree) s) ∧
    (∀ rel sz, Surv.sfile rel sz ∈ pruneListC [] tree →
      ∃ c ∈ (gSync o cfg.googleDrive root tree s).2.1,
        GCall.uploadsLocal (root ++ '/' :: rel) c = true) ∧
    (∀ rel sz, Surv.sfile rel sz ∈ pruneListC [] tree →
      ∃ c ∈ (pSync oP cfg.pCloud root tree sP).2.1,
        PCall.uploadsLocal (root ++ '/' :: rel) c = true) := by
  refine ⟨rfl, rfl, ?_, ?_, ?_⟩
  · unfold gSync
    exact walkListC_eq_procSeq _ _ [] tree s
  · intro rel sz hmem
    have hgd : ∀ rel' s', (gCreateFolder o cfg.googleDrive rel' s').2.2 =
        Except.ok () := by
      intro rel' s'
      obtain ⟨s2, tr2, h2⟩ := gCreateFolderLoop_ok o hG.1
        (splitSlash rel') (gRootID cfg.googleDrive) s'
      simp [gCreateFolder, h2]
    have hgf : ∀ (rel' : GoStr) (sz' : Nat) (s' : σ), (gUploadFile o cfg.googleDrive
        (root ++ '/' :: rel') rel' s').2.2 = Except.ok () ∧
        ∃ c ∈ (gUploadFile o cfg.googleDrive
          (root ++ '/' :: rel') rel' s').2.1,
          GCall.uploadsLocal (root ++ '/' :: rel') c = true := by
      intro rel' sz' s'
      obtain ⟨s2, tr2, h2, c, hc, hq⟩ :=
        gUploadFile_ok o hG cfg.googleDrive (root ++ '/' :: rel') rel' s'
      exact ⟨by simp [h2], by rw [h2]; exact ⟨c, hc, hq⟩⟩
    have hmain := procSeq_transfers
      (fun rel' s1 => gCreateFolder o cfg.googleDrive rel' s1)
      (fun rel' _ s1 =>
        gUploadFile o cfg.googleDrive (root ++ '/' :: rel') rel' s1)
      (fun rel' c => GCall.uploadsLocal (root ++ '/' :: rel') c)
      (pruneListC [] tree) s
      (fun rel' s' _ => hgd rel' s')
      (fun rel' sz' s' _ => hgf rel' sz' s')
    have heq : gSync o cfg.googleDrive root tree s =
        procSeq (fun rel' s1 => gCreateFolder o cfg.googleDrive rel' s1)
          (fun rel' _ s1 =>
            gUploadFile o cfg.googleDrive (root ++ '/' :: rel') rel' s1)
          (pruneListC [] tree) s := by
      unfold gSync
      exact walkListC_eq_procSeq _ _ [] tree s
    rw [heq]
    exact hmain.2 rel sz hmem
  · intro rel sz hmem
    have hmain := procSeq_transfers
      (fun rel' s1 => pCreateFolder oP cfg.pCloud rel' s1)
      (fun rel' _ s1 =>
        pUploadFile oP cfg.pCloud (root ++ '/' :: rel') rel' s1)
      (fun rel' c => PCall.uploadsLocal (root ++ '/' :: rel') c)
      (pruneListC [] tree) sP
      (fun rel' s' hm => hPd rel' s' hm)
      (fun rel' sz' s' hm => hPf rel' sz' s' hm)
    have heq : pSync oP cfg.pCloud root tree sP =
        procSeq (fun rel' s1 => pCreateFolder oP cfg.pCloud rel' s1)
          (fun rel' _ s1 =>
            pUploadFile oP cfg.pCloud (root ++ '/' :: rel') rel' s1)
          (pruneListC [] tree) sP := by
      unfold pSync
      exact walkListC_eq_procSeq _ _ [] tree sP
    rw [heq]
    exact hmain.2 rel sz hmem

/-- Witness scenario for C10: one file junk.tmp that the CONFIGURED
ignore_patterns ["*.tmp"] would exclude but the built-in list does not. -/
def c10Tree : FsList := .cons (.file (gs "junk.tmp") 1 0) .nil

def c10Config : Config :=
  { googleDrive := ⟨[], []⟩
    pCloud := ⟨[], []⟩
    general :=
      { maxConcurrency := 5
        retryAttempts := 3
        ignorePatterns := [gs "*.tmp"]
        includePatterns := [] } }

def c10GOracle : GOracle Unit :=
  { findFolder := fun _ _ s => (s, .ok (some (gs "fid")))
    createFolder := fun _ _ s => (s, .ok (gs "fid"))
    findFile := fun _ _ s => (s, .ok none)
    updateFile := fun _ _ s => (s, .ok ())
    createFile := fun _ _ _ s => (s, .ok ()) }

def c10POracle : POracle Unit :=
  { listFolder := fun _ s => (s, .ok [⟨gs ".", true, gs "5"⟩])
    createFolder := fun _ _ s => (s, .ok (gs "6"))
    upload := fun _ _ _ s => (s, .ok ()) }

/-- Witness for C10: a file matching only the configured (never consulted)
ignore patterns is uploaded by both clients. -/
theorem c10_only_builtin_ignore_list_witness :
    (∃ c ∈ (gSync c10GOracle c10Config.googleDrive (gs "/src")
        c10Tree ()).2.1,
      GCall.uploadsLocal (gs "/src" ++ '/' :: gs "junk.tmp") c = true) ∧
    (∃ c ∈ (pSync c10POracle c10Config.pCloud (gs "/src")
        c10Tree ()).2.1,
      PCall.uploadsLocal (gs "/src" ++ '/' :: gs "junk.tmp") c = true) := by
  have hprune : pruneListC [] c10Tree = [.sfile (gs "junk.tmp") 1] := rfl
  have h := c10_only_builtin_ignore_list c10Config [gs "*.tmp"] []
    c10GOracle c10POracle (gs "/src") c10Tree () ()
    ⟨fun _ _ _ => ⟨gs "fid", rfl⟩, fun _ _ _ => ⟨none, rfl⟩,
      fun _ _ _ => rfl, fun _ _ _ _ => rfl⟩
    (by
      intro rel s' hm
      rw [hprune] at hm
      simp at hm)
    (by
      intro rel sz s' hm
      rw [hprune] at hm
      simp only [List.mem_singleton, Surv.sfile.injEq] at hm
      obtain ⟨h1, h2⟩ := hm
      subst h1
      cases s'
      exact ⟨rfl, ⟨.uploadOp (gs "5") (gs "junk.tmp")
        (gs "/src" ++ '/' :: gs "junk.tmp"), by decide, rfl⟩⟩)
  exact ⟨h.2.2.2.1 (gs "junk.tmp") 1 (by decide),
    h.2.2.2.2 (gs "junk.tmp") 1 (by decide)⟩

/-! ## C7: scanner hash policy -/

mutual
theorem scanEntry_hash_policy (ig inc : List GoStr)
    (hf : GoStr → Option GoStr)
    (hWF : ∀ p h, hf p = some h → h ≠ ([] : GoStr))
    (absDir relDir : GoStr) (e : FsEntry) :
    ∀ fi ∈ (scanEntry ig inc hf absDir relDir e).files,
      (fi.isDir = true ∨ fi.size = 0 → fi.md5Hash = []) ∧
      (fi.md5Hash ≠ [] → fi.isDir = false ∧ 0 < fi.size) := by
  cases e with
  | file n sz mt =>
    intro fi hfi
    simp only [scanEntry] at hfi
    by_cases hig : shouldIgnoreS ig (relOf relDir n) false = true
    · simp [hig] at hfi
    · simp only [Bool.not_eq_true] at hig
      simp only [hig, Bool.false_eq_true, if_false] at hfi
      by_cases hinc : shouldIncludeS inc (relOf relDir n) false = true
      · simp only [hinc, Bool.not_true, Bool.false_eq_true, if_false] at hfi
        by_cases hsz : sz > 0
        · simp only [hsz, if_true] at hfi
          cases hh : hf (absDir ++ '/' :: n) with
          | some h =>
            rw [hh] at hfi
            simp only [ScanOut.files, List.mem_singleton] at hfi
            subst hfi
            refine ⟨?_, fun _ => ⟨rfl, hsz⟩⟩
            rintro (h1 | h1)
            · simp at h1
            · simp only [FileInfo.size] at h1
              omega
          | none =>
            rw [hh] at hfi
            simp only [ScanOut.files, List.mem_singleton] at hfi
            subst hfi
            exact ⟨fun _ => rfl, fun hne => absurd rfl hne⟩
        · simp only [hsz, if_false] at hfi
          simp only [ScanOut.files, List.mem_singleton] at hfi
          subst hfi
          exact ⟨fun _ => rfl, fun hne => absurd rfl hne⟩
      · simp [hinc] at hfi
  | dir n sz mt ch =>
    intro fi hfi
    simp only [scanEntry] at hfi
    by_cases hig : shouldIgnoreS ig (relOf relDir n) true = true
    · simp [hig] at hfi
    · simp only [Bool.not_eq_true] at hig
      simp only [hig, Bool.false_eq_true, if_false] at hfi
      by_cases hinc : shouldIncludeS inc (relOf relDir n) true = true
      · simp only [hinc, Bool.not_true, Bool.false_eq_true, if_false,
          ScanOut.app, ScanOut.files, List.singleton_append,
          List.mem_cons] at hfi
        rcases hfi with hfi | hfi
        · subst hfi
          exact ⟨fun _ => rfl, fun hne => absurd rfl hne⟩
        · exact scanList_hash_policy ig inc hf hWF (absDir ++ '/' :: n)
            (relOf relDir n) ch fi hfi
      · simp only [hinc, Bool.not_false, if_true] at hfi
        exact scanList_hash_policy ig inc hf hWF (absDir ++ '/' :: n)
          (relOf relDir n) ch fi hfi

theorem scanList_hash_policy (ig inc : List GoStr)
    (hf : GoStr → Option GoStr)
    (hWF : ∀ p h, hf p = some h → h ≠ ([] : GoStr))
    (absDir relDir : GoStr) (l : FsList) :
    ∀ fi ∈ (scanList ig inc hf absDir relDir l).files,
      (fi.isDir = true ∨ fi.size = 0 → fi.md5Hash = []) ∧
      (fi.md5Hash ≠ [] → fi.isDir = false ∧ 0 < fi.size) := by
  cases l with
  | nil => simp [scanList, ScanOut.files]
  | cons e r =>
    intro fi hfi
    simp only [scanList, ScanOut.app, ScanOut.files, List.mem_append] at hfi
    rcases hfi with hfi | hfi
    · exact scanEntry_hash_policy ig inc hf hWF absDir relDir e fi hfi
    · exact scanList_hash_policy ig inc hf hWF absDir relDir r fi hfi
end

mutual
theorem scanEntry_paths_indep (ig inc : List GoStr)
    (hf hf' : GoStr → Option GoStr) (absDir relDir : GoStr) (e : FsEntry) :
    (scanEntry ig inc hf absDir relDir e).files.map (fun fi => fi.path) =
      (scanEntry ig inc hf' absDir relDir e).files.map (fun fi => fi.path)
    := by
  cases e with
  | file n sz mt =>
    simp only [scanEntry]
    by_cases hig : shouldIgnoreS ig (relOf relDir n) false = true
    · simp [hig]
    · simp only [Bool.not_eq_true] at hig
      by_cases hinc : shouldIncludeS inc (relOf relDir n) false = true
      · simp only [hig, hinc, Bool.false_eq_true, if_false, Bool.not_true]
        by_cases hsz : sz > 0
        · simp only [hsz, if_true]
          cases hf (absDir ++ '/' :: n) <;>
            cases hf' (absDir ++ '/' :: n) <;>
              simp [ScanOut.files]
        · simp [hsz]
      · simp [hig, hinc]
  | dir n sz mt ch =>
    simp only [scanEntry]
    by_cases hig : shouldIgnoreS ig (relOf relDir n) true = true
    · simp [hig]
    · simp only [Bool.not_eq_true] at hig
      by_cases hinc : shouldIncludeS inc (relOf relDir n) true = true
      · simp only [hig, hinc, Bool.false_eq_true, if_false, Bool.not_true,
          ScanOut.app, ScanOut.files, List.map_cons, List.map_append]
        rw [scanList_paths_indep ig inc hf hf' (absDir ++ '/' :: n)
          (relOf relDir n) ch]
      · simp only [hig, hinc, Bool.false_eq_true, if_false, Bool.not_false,
          if_true]
        exact scanList_paths_indep ig inc hf hf' (absDir ++ '/' :: n)
          (relOf relDir n) ch

theorem scanList_paths_indep (ig inc : List GoStr)
    (hf hf' : GoStr → Option GoStr) (absDir relDir : GoStr) (l : FsList) :
    (scanList ig inc hf absDir relDir l).files.map (fun fi => fi.path) =
      (scanList ig inc hf' absDir relDir l).files.map (fun fi => fi.path)
    := by
  cases l with
  | nil => rfl
  | cons e r =>
    simp only [scanList, ScanOut.app, ScanOut.files, List.map_append]
    rw [scanEntry_paths_indep ig inc hf hf' absDir relDir e,
      scanList_paths_indep ig inc hf hf' absDir relDir r]
end

/-- C7: in every scan result, a non-empty contentHash occurs only on
non-directory entries of positive size — directories and zero-byte files
always carry an empty hash — and a hash failure (hf returning none) still
records the entry with an empty hash without aborting: the recorded paths
are the same for ANY two hash oracles.  The hypothesis states that
calculateMD5, when it succeeds, returns a non-empty hex digest. -/
theorem c7_scan_hash_policy (ig inc : List GoStr)
    (hf hf' : GoStr → Option GoStr) (root : GoStr) (tree : FsList)
    (hWF : ∀ p h, hf p = some h → h ≠ ([] : GoStr)) :
    (∀ fi ∈ (scanS ig inc hf root tree).files,
      (fi.isDir = true ∨ fi.size = 0 → fi.md5Hash = []) ∧
      (fi.md5Hash ≠ [] → fi.isDir = false ∧ 0 < fi.size)) ∧
    (scanS ig inc hf root tree).files.map (fun fi => fi.path) =
      (scanS ig inc hf' root tree).files.map (fun fi => fi.path) :=
  ⟨scanList_hash_policy ig inc hf hWF root [] tree,
    scanList_paths_indep ig inc hf hf' root [] tree⟩

/-- Witness tree for C7: a directory containing a hashable file, a
zero-byte file, and a file whose hashing fails. -/
def c7Tree : FsList :=
  .cons (.dir (gs "d") 0 0
    (.cons (.file (gs "a.txt") 2 0)
      (.cons (.file (gs "empty.txt") 0 0) .nil)))
    (.cons (.file (gs "bad.bin") 3 0) .nil)

/-- The hash oracle: a.txt hashes; everything else fails. -/
def c7Hash : GoStr → Option GoStr := fun p =>
  if p = gs "/r" ++ '/' :: gs "a.txt" then some (gs "ff11") else none

/-- Witness for C7: a directory, a zero-byte file, a hashable file and a
file whose hashing fails; all four entries are recorded, hashes only where
required. -/
theorem c7_scan_hash_policy_witness :
    (∀ fi ∈ (scanS [] [] c7Hash (gs "/r") c7Tree).files,
      (fi.isDir = true ∨ fi.size = 0 → fi.md5Hash = []) ∧
      (fi.md5Hash ≠ [] → fi.isDir = false ∧ 0 < fi.size)) ∧
    (scanS [] [] c7Hash (gs "/r") c7Tree).files.map (fun fi => fi.path) =
      (scanS [] [] (fun _ => none) (gs "/r") c7Tree).files.map
        (fun fi => fi.path) :=
  c7_scan_hash_policy [] [] c7Hash (fun _ => none) (gs "/r") c7Tree
    (fun p h hp => by
      simp only [c7Hash] at hp
      split at hp
      · injection hp with h1
        rw [← h1]
        decide
      · cases hp)

/-! ## C8: debounce -/

theorem lookupTime_upsert (m : List (GoStr × Int)) (k : GoStr) (v : Int) :
    lookupTime (upsertTime m k v) k = some v := by
  induction m with
  | nil => simp [upsertTime, lookupTime]
  | cons p t ih =>
    obtain ⟨k', v'⟩ := p
    by_cases hk : k' == k
    · simp [upsertTime, lookupTime, hk]
    · simp only [upsertTime, lookupTime, hk, Bool.false_eq_true, if_false]
      exact ih

/-- C8: two change events for the same path within the debounce window
yield exactly one emitted ChangeEvent.  Starting from any watcher state
with no debounce record for the path and room in the events channel,
sending e1 and then e2 (same path, e2 within the window after e1) leaves
the channel holding exactly one new event for that path — e1 — with the
later event suppressed by the per-path debounce filter. -/
theorem c8_debounce_emits_exactly_once (st : WatcherState)
    (e1 e2 : FileEvent) (hname : e2.name = e1.name)
    (hfresh : lookupTime st.debounceMap e1.name = none)
    (hroom : st.events.length < eventChanCap)
    (hwin : e2.time - e1.time < debounceNs) :
    sendEvent (sendEvent st e1) e2 = sendEvent st e1 ∧
    eventsFor e1.name (sendEvent (sendEvent st e1) e2).events =
      eventsFor e1.name st.events ++ [e1] := by
  have h1 : sendEvent st e1 =
      ⟨upsertTime st.debounceMap e1.name e1.time, st.events ++ [e1],
        st.droppedLog⟩ := by
    simp [sendEvent, hfresh, pushEvent, hroom]
  have h2 : sendEvent (sendEvent st e1) e2 = sendEvent st e1 := by
    rw [h1]
    simp only [sendEvent, hname, lookupTime_upsert]
    rw [if_pos hwin]
  refine ⟨h2, ?_⟩
  rw [h2, h1]
  simp only [eventsFor, List.filter_append]
  simp [List.filter, show (e1.name == e1.name) = true by simp]

/-- Witness for C8 at a concrete state and event pair. -/
theorem c8_debounce_emits_exactly_once_witness :
    sendEvent (sendEvent ⟨[], [], []⟩ ⟨gs "a.txt", .write, 100⟩)
        ⟨gs "a.txt", .write, 500⟩ =
      sendEvent ⟨[], [], []⟩ ⟨gs "a.txt", .write, 100⟩ ∧
    eventsFor (gs "a.txt")
        (sendEvent (sendEvent ⟨[], [], []⟩ ⟨gs "a.txt", .write, 100⟩)
          ⟨gs "a.txt", .write, 500⟩).events =
      eventsFor (gs "a.txt") ([] : List FileEvent) ++
        [⟨gs "a.txt", .write, 100⟩] :=
  c8_debounce_emits_exactly_once ⟨[], [], []⟩ ⟨gs "a.txt", .write, 100⟩
    ⟨gs "a.txt", .write, 500⟩ rfl rfl (by decide) (by decide)

/-! ## C9: at most one active pass -/

/-- C9 counterexample: the state in which BOTH the main loop's timer pass
and the watcher goroutine's pass are simultaneously active is reachable
from the daemon start state (watch mode on): nothing suppresses or queues
the watcher trigger while a timer pass is running, so two passes overlap. -/
theorem c9_two_concurrent_passes_reachable :
    DReach (daemonInit true) ⟨true, true, true⟩ ∧
    activePasses ⟨true, true, true⟩ = 2 := by
  refine ⟨?_, rfl⟩
  have h1 : DStep (⟨true, false, false⟩ : DaemonState) ⟨true, true, false⟩ :=
    DStep.tickBegin ⟨true, false, false⟩ rfl
  have h2 : DStep (⟨true, true, false⟩ : DaemonState) ⟨true, true, true⟩ :=
    DStep.watchBegin ⟨true, true, false⟩ rfl rfl
  exact Relation.ReflTransGen.tail (Relation.ReflTransGen.tail
    Relation.ReflTransGen.refl h1) h2

theorem c9_invariant (w : Bool) (s : DaemonState)
    (h : DReach (daemonInit w) s) :
    s.watchEnabled = w ∧ (w = false → s.watcherRunning = false) := by
  induction h with
  | refl => exact ⟨rfl, fun _ => rfl⟩
  | tail hr step ih =>
    cases step with
    | tickBegin hm => exact ⟨ih.1, ih.2⟩
    | tickEnd hm => exact ⟨ih.1, ih.2⟩
    | watchBegin hw hwr =>
      refine ⟨ih.1, fun hwf => ?_⟩
      exfalso
      rw [ih.1, hwf] at hw
      cases hw
    | watchEnd hm => exact ⟨ih.1, fun _ => rfl⟩

/-- C9 as amended: each trigger source alone never overlaps itself (its
loop is sequential), so with watch mode disabled at most one pass is ever
active; with watch mode enabled a watcher-triggered pass may overlap a
timer-triggered pass, bounding the number of simultaneously active passes
by two — and two is reachable. -/
theorem c9_at_most_one_pass_per_source (w : Bool) (s : DaemonState)
    (h : DReach (daemonInit w) s) :
    activePasses s ≤ 2 ∧ (w = false → activePasses s ≤ 1) := by
  obtain ⟨hwe, hwr⟩ := c9_invariant w s h
  constructor
  · unfold activePasses
    split <;> split <;> simp
  · intro hwf
    unfold activePasses
    rw [hwr hwf]
    simp only [Bool.false_eq_true, if_false]
    split <;> simp

/-- Witness for the amended C9 theorem: with watch mode off, the daemon
state after one timer pass begins has exactly one active pass. -/
theorem c9_at_most_one_pass_per_source_witness :
    activePasses ⟨false, true, false⟩ ≤ 2 ∧
    (false = false → activePasses ⟨false, true, false⟩ ≤ 1) :=
  c9_at_most_one_pass_per_source false ⟨false, true, false⟩
    (Relation.ReflTransGen.tail Relation.ReflTransGen.refl
      (DStep.tickBegin ⟨false, false, false⟩ rfl))

/-! ## String-decomposition lemmas for the pattern-matcher claims -/

theorem hasPre_iff (s p : GoStr) : hasPre s p = true ↔ ∃ t, s = p ++ t := by
  induction p generalizing s with
  | nil => simp [hasPre]
  | cons d p' ih =>
    cases s with
    | nil => simp [hasPre]
    | cons c s' =>
      simp only [hasPre, Bool.and_eq_true, beq_iff_eq, ih, List.cons_append,
        List.cons.injEq]
      constructor
      · rintro ⟨rfl, t, rfl⟩
        exact ⟨t, rfl, rfl⟩
      · rintro ⟨t, rfl, rfl⟩
        exact ⟨rfl, t, rfl⟩

theorem hasSuf_iff (s p : GoStr) : hasSuf s p = true ↔ ∃ t, s = t ++ p := by
  unfold hasSuf
  rw [hasPre_iff]
  constructor
  · rintro ⟨t, ht⟩
    refine ⟨t.reverse, ?_⟩
    have := congrArg List.reverse ht
    simpa using this
  · rintro ⟨t, rfl⟩
    exact ⟨t.reverse, by simp⟩

theorem containsSub_iff (s sub : GoStr) :
    containsSub s sub = true ↔ ∃ a b, s = a ++ sub ++ b := by
  induction s with
  | nil =>
    simp only [containsSub, Bool.or_eq_true, hasPre_iff]
    constructor
    · rintro (⟨t, ht⟩ | h)
      · exact ⟨[], t, ht⟩
      · cases h
    · rintro ⟨a, b, hab⟩
      have h0 : a ++ sub ++ b = [] := hab.symm
      simp only [List.append_eq_nil] at h0
      obtain ⟨⟨ha, hs⟩, hb⟩ := h0
      exact Or.inl ⟨[], by simp [hs]⟩
  | cons c t ih =>
    simp only [containsSub, Bool.or_eq_true, hasPre_iff, ih]
    constructor
    · rintro (⟨b, hb⟩ | ⟨a, b, hab⟩)
      · exact ⟨[], b, by simpa using hb⟩
      · exact ⟨c :: a, b, by simp [hab]⟩
    · rintro ⟨a, b, hab⟩
      cases a with
      | nil => exact Or.inl ⟨b, by simpa using hab⟩
      | cons x a' =>
        right
        simp only [List.cons_append, List.cons.injEq] at hab
        exact ⟨a', b, hab.2⟩

theorem containsSub_singleton (s : GoStr) (c : Char) :
    containsSub s [c] = true ↔ c ∈ s := by
  rw [containsSub_iff]
  constructor
  · rintro ⟨a, b, rfl⟩
    simp
  · intro h
    obtain ⟨a, b, rfl⟩ := List.append_of_mem h
    exact ⟨a, b, by simp⟩

/-- filepath.Match on a pattern without glob syntax is plain equality. -/
theorem goMatch_lit (pat : GoStr)
    (hlit : ∀ c ∈ pat, c ≠ '*' ∧ c ≠ '?' ∧ c ≠ '[' ∧ c ≠ '\\') :
    ∀ s, goMatch pat s = some (s == pat) := by
  induction pat with
  | nil => intro s; cases s <;> simp [goMatch]
  | cons c p ih =>
    intro s
    have hc := hlit c (by simp)
    have ih' := ih (fun d hd => hlit d (by simp [hd]))
    rw [goMatch.eq_def]
    split
    · simp_all
    · simp_all
    · simp_all
    · simp_all
    · simp_all
    · simp_all
    · rename_i s7 s6 s5 cc pp h1 h2 h3 h4 h5 heq
      injection heq with e1 e2
      subst e1
      subst e2
      cases s7 with
      | nil => simp
      | cons d t =>
        by_cases hcd : c = d
        · subst hcd
          simp [ih']
        · have h6 : (c == d) = false := by simp [hcd]
          have h7 : ((d :: t : GoStr) == c :: p) = false := by
            have hdec : decide (d = c) = false := by
              simp only [decide_eq_false_iff_not]
              exact fun h => hcd h.symm
            simp only [BEq.beq, List.beq, hdec, Bool.false_and]
          simp [h6, h7]

/-! ## splitSlash, joinSlash, goDir and goBase facts -/

theorem splitSlash_ne_nil (s : GoStr) : splitSlash s ≠ [] := by
  cases s with
  | nil => simp [splitSlash]
  | cons c t =>
    simp only [splitSlash]
    by_cases hc : c == '/'
    · simp [hc]
    · simp only [hc, Bool.false_eq_true, if_false]
      cases splitSlash t <;> simp

theorem splitSlash_no_slash (s : GoStr) :
    ∀ x ∈ splitSlash s, '/' ∉ x := by
  induction s with
  | nil => simp [splitSlash]
  | cons c t ih =>
    intro x hx
    simp only [splitSlash] at hx
    by_cases hc : c == '/'
    · simp only [hc, if_true] at hx
      rcases List.mem_cons.mp hx with h | h
      · subst h; simp
      · exact ih x h
    · simp only [hc, Bool.false_eq_true, if_false] at hx
      cases hr : splitSlash t with
      | nil => exact absurd hr (splitSlash_ne_nil t)
      | cons h0 t0 =>
        rw [hr] at hx
        rcases List.mem_cons.mp hx with h | h
        · subst h
          intro hmem
          rcases List.mem_cons.mp hmem with h' | h'
          · rw [h'] at hc; simp at hc
          · exact ih h0 (by rw [hr]; simp) h'
        · exact ih x (by rw [hr]; simp [h])

theorem joinSlash_splitSlash (s : GoStr) : joinSlash (splitSlash s) = s := by
  induction s with
  | nil => simp [splitSlash, joinSlash]
  | cons c t ih =>
    simp only [splitSlash]
    by_cases hc : c == '/'
    · have hc' : c = '/' := by simpa using hc
      simp only [hc, if_true]
      subst hc'
      cases hr : splitSlash t with
      | nil => exact absurd hr (splitSlash_ne_nil t)
      | cons h0 t0 =>
        rw [hr] at ih
        simp only [joinSlash, List.nil_append]
        rw [ih]
    · simp only [hc, Bool.false_eq_true, if_false]
      cases hr : splitSlash t with
      | nil => exact absurd hr (splitSlash_ne_nil t)
      | cons h0 t0 =>
        rw [hr] at ih
        cases t0 with
        | nil => simp only [joinSlash] at ih ⊢; rw [ih]
        | cons h1 t1 =>
          simp only [joinSlash] at ih ⊢
          rw [List.cons_append, ih]

theorem splitSlash_append (a b : GoStr) (ha : '/' ∉ a) :
    splitSlash (a ++ '/' :: b) = a :: splitSlash b := by
  induction a with
  | nil => simp [splitSlash]
  | cons c a' ih =>
    have hc : (c == '/') = false := by
      simp only [beq_eq_false_iff_ne, ne_eq]
      intro h
      exact ha (by simp [h])
    have ih' := ih (fun h => ha (by simp [h]))
    simp only [List.cons_append, splitSlash, hc, Bool.false_eq_true,
      if_false, List.append_eq]
    rw [ih']

theorem joinSlash_append_singleton (ss : List GoStr) (t : GoStr)
    (hne : ss ≠ []) :
    joinSlash (ss ++ [t]) = joinSlash ss ++ '/' :: t := by
  induction ss with
  | nil => exact absurd rfl hne
  | cons x ss' ih =>
    cases ss' with
    | nil => simp [joinSlash]
    | cons y ss'' =>
      have := ih (by simp)
      simp only [List.cons_append, joinSlash, List.append_eq] at this ⊢
      rw [this]
      simp

theorem joinSlash_length (ss : List GoStr) :
    ss.length ≤ (joinSlash ss).length + 1 := by
  induction ss with
  | nil => simp
  | cons x ss' ih =>
    cases ss' with
    | nil => simp [joinSlash]
    | cons y ss'' =>
      simp only [joinSlash, List.length_cons, List.length_append] at ih ⊢
      omega

theorem joinSlash_ne_nil (ss : List GoStr) (hne : ss ≠ [])
    (hx : ∀ x ∈ ss, x ≠ ([] : GoStr)) : joinSlash ss ≠ [] := by
  cases ss with
  | nil => exact absurd rfl hne
  | cons x ss' =>
    cases ss' with
    | nil => exact hx x (by simp)
    | cons y ss'' =>
      simp only [joinSlash]
      intro h
      rw [List.append_eq_nil] at h
      exact hx x (by simp) h.1

theorem dropWhile_head_fails {p : Char → Bool} (l : GoStr) (c : Char)
    (hc : p c = false) : (c :: l).dropWhile p = c :: l := by
  simp [List.dropWhile, hc]

theorem dropWhile_all_sat {p : Char → Bool} (l r : GoStr)
    (hl : ∀ x ∈ l, p x = true) : (l ++ r).dropWhile p = r.dropWhile p := by
  induction l with
  | nil => simp
  | cons x l' ih =>
    simp only [List.cons_append, List.dropWhile, hl x (by simp)]
    exact ih (fun y hy => hl y (by simp [hy]))

theorem takeWhile_all_sat_stop {p : Char → Bool} (l r : GoStr) (c : Char)
    (hl : ∀ x ∈ l, p x = true) (hc : p c = false) :
    (l ++ c :: r).takeWhile p = l := by
  induction l with
  | nil => simp [List.takeWhile, hc]
  | cons x l' ih =>
    simp only [List.cons_append, List.takeWhile, hl x (by simp),
      List.append_eq]
    rw [ih (fun y hy => hl y (by simp [hy]))]

theorem takeWhile_all_sat {p : Char → Bool} (l : GoStr)
    (hl : ∀ x ∈ l, p x = true) : l.takeWhile p = l := by
  induction l with
  | nil => simp
  | cons x l' ih =>
    simp only [List.takeWhile, hl x (by simp)]
    rw [ih (fun y hy => hl y (by simp [hy]))]

theorem goBase_no_slash (t : GoStr) (hne : t ≠ []) (ht : '/' ∉ t) :
    goBase t = t := by
  have hall : ∀ x ∈ t.reverse, (x != '/') = true := by
    intro x hx
    have hxt : x ∈ t := by simpa using hx
    simp only [bne_iff_ne, ne_eq]
    intro h
    rw [h] at hxt
    exact ht hxt
  have h1 : t.reverse.dropWhile (· == '/') = t.reverse := by
    cases hr : t.reverse with
    | nil => simp
    | cons c r' =>
      refine dropWhile_head_fails r' c ?_
      have hcc := hall c (by rw [hr]; simp)
      simp only [bne_iff_ne, ne_eq] at hcc
      simp [hcc]
  have h2 : t.reverse.takeWhile (· != '/') = t.reverse :=
    takeWhile_all_sat _ hall
  simp only [goBase, h1, List.reverse_reverse, h2, hne, if_false]

theorem goDir_no_slash (s : GoStr) (hs : '/' ∉ s) : goDir s = gs "." := by
  have h : containsSub s ['/'] = false := by
    rw [Bool.eq_false_iff]
    intro hc
    exact hs ((containsSub_singleton s '/').mp hc)
  simp [goDir, h]

theorem goDir_append (j t : GoStr) (ht : '/' ∉ t)
    (hj : j ≠ []) : goDir (j ++ '/' :: t) = j := by
  have hcont : containsSub (j ++ '/' :: t) ['/'] = true :=
    (containsSub_singleton _ '/').mpr (by simp)
  have hrev : (j ++ '/' :: t).reverse = t.reverse ++ '/' :: j.reverse := by
    simp
  have hall : ∀ x ∈ t.reverse, ((x != '/') : Bool) = true := by
    intro x hx
    have hxt : x ∈ t := by simpa using hx
    simp only [bne_iff_ne, ne_eq]
    intro h
    rw [h] at hxt
    exact ht hxt
  have hdrop : (j ++ '/' :: t).reverse.dropWhile (· != '/') =
      '/' :: j.reverse := by
    rw [hrev, dropWhile_all_sat _ _ hall]
    simp [List.dropWhile]
  have hd : ((j ++ '/' :: t).reverse.dropWhile (· != '/')).reverse.dropLast
      = j := by
    rw [hdrop]
    simp only [List.reverse_cons]
    rw [List.dropLast_concat]
    simp
  simp only [goDir, hcont, if_true, hd, if_neg hj]

theorem goBase_append (j t : GoStr) (hne : t ≠ []) (ht : '/' ∉ t) :
    goBase (j ++ '/' :: t) = t := by
  have hne2 : (j ++ '/' :: t) ≠ [] := by simp
  have hrev : (j ++ '/' :: t).reverse = t.reverse ++ '/' :: j.reverse := by
    simp
  have h1 : (j ++ '/' :: t).reverse.dropWhile (· == '/') =
      (j ++ '/' :: t).reverse := by
    cases hr : t.reverse with
    | nil => exact absurd (by simpa using hr) hne
    | cons c r' =>
      rw [hrev, hr]
      refine dropWhile_head_fails _ c ?_
      have hct : c ∈ t := by
        have : c ∈ t.reverse := by rw [hr]; simp
        simpa using this
      simp only [beq_eq_false_iff_ne, ne_eq]
      intro h
      rw [h] at hct
      exact ht hct
  have hall : ∀ x ∈ t.reverse, ((x != '/') : Bool) = true := by
    intro x hx
    have hxt : x ∈ t := by simpa using hx
    simp only [bne_iff_ne, ne_eq]
    intro h
    rw [h] at hxt
    exact ht hxt
  have h2 : (j ++ '/' :: t).reverse.takeWhile (· != '/') = t.reverse := by
    rw [hrev]
    exact takeWhile_all_sat_stop _ _ '/' hall (by simp)
  simp only [goBase, hne2, if_false, h1, List.reverse_reverse, h2,
    List.reverse_reverse]

/-! ## The ancestor loop over path segments -/

theorem ancLoopF_dot (pat : GoStr) (m : Nat) :
    ancLoopF m pat (gs ".") = false := by
  cases m <;> simp [ancLoopF]

theorem ancLoopF_joinSlash (pat : GoStr)
    (hlit : ∀ c ∈ pat, c ≠ '*' ∧ c ≠ '?' ∧ c ≠ '[' ∧ c ≠ '\\') :
    ∀ (ss : List GoStr), (∀ x ∈ ss, x ≠ [] ∧ '/' ∉ x ∧ x ≠ gs ".") →
      ss ≠ [] → ∀ n, ss.length + 1 ≤ n →
      ancLoopF n pat (joinSlash ss) = ss.any (· == pat) := by
  intro ss
  induction ss using List.reverseRecOn with
  | nil => intro _ h; exact absurd rfl h
  | append_singleton ss' t ih =>
    intro hgood _ n hn
    obtain ⟨hT1, hT2, hT3⟩ := hgood t (by simp)
    cases n with
    | zero => simp at hn
    | succ m =>
      by_cases hss : ss' = []
      · subst hss
        have hj : joinSlash ([] ++ [t]) = t := rfl
        rw [hj]
        have hslash : t ≠ gs "/" := by
          intro h
          rw [h] at hT2
          exact hT2 (by decide)
        simp only [ancLoopF]
        rw [if_neg (by simp [hT3, hslash])]
        rw [goBase_no_slash t hT1 hT2, goMatch_lit pat hlit t,
          goDir_no_slash t hT2, ancLoopF_dot]
        simp
      · have hJ : joinSlash (ss' ++ [t]) = joinSlash ss' ++ '/' :: t :=
          joinSlash_append_singleton _ _ hss
        have hJne : joinSlash ss' ≠ [] :=
          joinSlash_ne_nil ss' hss (fun x hx => (hgood x (by simp [hx])).1)
        rw [hJ]
        have hlen : (joinSlash ss' ++ '/' :: t).length ≥ 2 := by
          simp only [List.length_append, List.length_cons]
          have h0 : 0 < (joinSlash ss').length := List.length_pos.mpr hJne
          omega
        have hdot : joinSlash ss' ++ '/' :: t ≠ gs "." := by
          intro h
          rw [h] at hlen
          simp [gs] at hlen
        have hslash2 : joinSlash ss' ++ '/' :: t ≠ gs "/" := by
          intro h
          rw [h] at hlen
          simp [gs] at hlen
        simp only [ancLoopF]
        rw [if_neg (by simp [hdot, hslash2])]
        rw [goBase_append _ _ hT1 hT2, goMatch_lit pat hlit t,
          goDir_append _ _ hT2 hJne]
        have hnn : ss'.length + 1 ≤ m := by
          simp only [List.length_append, List.length_singleton] at hn
          omega
        rw [ih (fun x hx => hgood x (by simp [hx])) hss m hnn]
        simp [List.any_append, Bool.or_comm]

/-- Scanner.matchPattern's core on a glob-free pattern: exact match,
prefix test or ancestor loop. -/
theorem matchCoreS_lit (pat path : GoStr)
    (hlit : ∀ c ∈ pat, c ≠ '*' ∧ c ≠ '?' ∧ c ≠ '[' ∧ c ≠ '\\') :
    matchCoreS pat path =
      ((path == pat) || hasPre path (pat ++ ['/']) ||
        ancLoop pat (goDir path)) := by
  unfold matchCoreS
  rw [goMatch_lit pat hlit path]
  cases hpp : path == pat with
  | true => simp [hpp]
  | false =>
    simp only [hpp, Option.getD_some, Bool.false_eq_true, if_false,
      Bool.false_or]
    cases hpre : hasPre path (pat ++ ['/']) <;> simp [hpre]

/-- The core characterization: for a clean path and a slash-free,
glob-free pattern, Scanner.matchPattern's body accepts exactly when the
path equals the pattern or some non-final path segment equals it. -/
theorem c5_core (pat path : GoStr)
    (hslash : '/' ∉ pat)
    (hlit : ∀ c ∈ pat, c ≠ '*' ∧ c ≠ '?' ∧ c ≠ '[' ∧ c ≠ '\\')
    (hpath : ∀ x ∈ splitSlash path, x ≠ [] ∧ x ≠ gs ".") :
    matchCoreS pat path = true ↔
      (path = pat ∨ pat ∈ (splitSlash path).dropLast) := by
  have hsegs_ne := splitSlash_ne_nil path
  obtain ⟨ds, lastseg, hdecomp⟩ :
      ∃ ds lastseg, splitSlash path = ds ++ [lastseg] :=
    ⟨_, _, (List.dropLast_append_getLast hsegs_ne).symm⟩
  have hgood : ∀ x ∈ ds ++ [lastseg], x ≠ [] ∧ '/' ∉ x ∧ x ≠ gs "." := by
    intro x hx
    have hx' : x ∈ splitSlash path := by rw [hdecomp]; exact hx
    obtain ⟨h1, h2⟩ := hpath x hx'
    exact ⟨h1, splitSlash_no_slash path x hx', h2⟩
  have hlast := hgood lastseg (by simp)
  have hjoin : joinSlash (ds ++ [lastseg]) = path := by
    rw [← hdecomp]; exact joinSlash_splitSlash path
  rw [matchCoreS_lit pat path hlit, hdecomp, List.dropLast_concat]
  by_cases hds : ds = []
  · subst hds
    have hpl : path = lastseg := by simpa [joinSlash] using hjoin.symm
    subst hpl
    have hanc : ancLoop pat (goDir path) = false := by
      rw [goDir_no_slash path hlast.2.1]
      exact ancLoopF_dot pat _
    have hpre : hasPre path (pat ++ ['/']) = false := by
      rw [Bool.eq_false_iff]
      intro h
      obtain ⟨t, ht⟩ := (hasPre_iff _ _).mp h
      have : '/' ∈ path := by rw [ht]; simp
      exact hlast.2.1 this
    simp [hanc, hpre, beq_iff_eq]
  · have hJne : joinSlash ds ≠ [] :=
      joinSlash_ne_nil ds hds (fun x hx => (hgood x (by simp [hx])).1)
    have hJ : path = joinSlash ds ++ '/' :: lastseg := by
      rw [← hjoin, joinSlash_append_singleton ds lastseg hds]
    have hanc : ancLoop pat (goDir path) = ds.any (· == pat) := by
      rw [hJ, goDir_append _ _ hlast.2.1 hJne]
      unfold ancLoop
      refine ancLoopF_joinSlash pat hlit ds
        (fun x hx => hgood x (by simp [hx])) hds _ ?_
      have := joinSlash_length ds
      omega
    have hpre_mem : hasPre path (pat ++ ['/']) = true → pat ∈ ds := by
      intro h
      obtain ⟨t, ht⟩ := (hasPre_iff _ _).mp h
      have ht' : path = pat ++ '/' :: t := by simpa using ht
      have hsp : splitSlash path = pat :: splitSlash t := by
        rw [ht']
        exact splitSlash_append pat t hslash
      have hds_eq : ds ++ [lastseg] = pat :: splitSlash t := by
        rw [← hdecomp, hsp]
      cases ds with
      | nil =>
        simp only [List.nil_append, List.cons.injEq] at hds_eq
        exact absurd hds_eq.2.symm (splitSlash_ne_nil t)
      | cons d0 ds' =>
        simp only [List.cons_append, List.cons.injEq] at hds_eq
        rw [hds_eq.1]
        simp
    constructor
    · intro h
      rcases Bool.or_eq_true _ _ |>.mp h with h1 | h3
      · rcases Bool.or_eq_true _ _ |>.mp h1 with h1a | h1b
        · exact Or.inl (by simpa using h1a)
        · exact Or.inr (hpre_mem h1b)
      · rw [hanc] at h3
        right
        obtain ⟨x, hx, hxe⟩ := List.any_eq_true.mp h3
        have : x = pat := by simpa using hxe
        rw [← this]
        exact hx
    · rintro (h | h)
      · simp [h]
      · refine Bool.or_eq_true _ _ |>.mpr (Or.inr ?_)
        rw [hanc]
        exact List.any_eq_true.mpr ⟨pat, h, by simp⟩

/-- C5 counterexample: the directory-scoped pattern "logs/" matches the
directory "a/logs/b" — an ancestor-segment match — although the path
neither equals "logs" nor starts with "logs/", contradicting the claimed
"if and only if". -/
theorem c5_dir_pattern_matches_ancestor :
    matchPatternS (gs "logs/") (gs "a/logs/b") true = true ∧
    ¬(gs "a/logs/b" = gs "logs" ∨
      hasPre (gs "a/logs/b") (gs "logs" ++ ['/']) = true) := by
  constructor
  · decide
  · decide

/-- C5 as amended: for a directory-scoped pattern whose body has no glob
syntax and no separator, and a clean relative path, the matcher returns
true iff the path is a directory AND (the path equals the stripped
pattern, or SOME NON-FINAL SEGMENT of the path equals it — which covers
both the "starts with pattern/" case and any deeper ancestor segment);
for non-directories it never matches. -/
theorem c5_dir_pattern_amended (pat path : GoStr) (isDir : Bool)
    (hslash : '/' ∉ pat)
    (hlit : ∀ c ∈ pat, c ≠ '*' ∧ c ≠ '?' ∧ c ≠ '[' ∧ c ≠ '\\')
    (hpath : ∀ x ∈ splitSlash path, x ≠ [] ∧ x ≠ gs ".") :
    matchPatternS (pat ++ ['/']) path isDir = true ↔
      isDir = true ∧ (path = pat ∨ pat ∈ (splitSlash path).dropLast) := by
  have hsuf : hasSuf (pat ++ ['/']) ['/'] = true :=
    (hasSuf_iff _ _).mpr ⟨pat, rfl⟩
  have htrim : trimSufSlash (pat ++ ['/']) = pat := by
    simp [trimSufSlash, hsuf, List.dropLast_concat]
  unfold matchPatternS
  simp only [hsuf, if_true, htrim]
  cases isDir with
  | false => simp
  | true =>
    simp only [Bool.not_true, Bool.false_eq_true, if_false]
    rw [c5_core pat path hslash hlit hpath]
    simp

/-- Witness for the amended C5 theorem at pattern "logs/" and the
directory path "logs/app". -/
theorem c5_dir_pattern_amended_witness :
    matchPatternS (gs "logs" ++ ['/']) (gs "logs/app") true = true ↔
      (true = true ∧ (gs "logs/app" = gs "logs" ∨
        gs "logs" ∈ (splitSlash (gs "logs/app")).dropLast)) :=
  c5_dir_pattern_amended (gs "logs") (gs "logs/app") true
    (by decide) (by decide) (by decide)

/-- C6 counterexample: the plain pattern "dir" does NOT match the path
"dir/file.txt", although "dir" is an ancestor segment of that path — the
first (top-level) one, which the claim explicitly says should match. -/
theorem c6_first_segment_ancestor_no_match :
    matchPatternU (gs "dir/file.txt") (gs "dir") = false ∧
    (splitSlash (gs "dir/file.txt")).dropLast = [gs "dir"] := by
  constructor
  · decide
  · decide

/-- C6 as amended: a plain pattern (no wildcard, no trailing separator)
matches iff the path equals the pattern, ends with "/"+pattern, or
contains "/"+pattern+"/" — i.e. an ancestor segment equal to the pattern
matches ONLY when it is preceded by an earlier segment; a pattern equal to
the first (top-level) segment of a longer path does not match. -/
theorem c6_plain_pattern_amended (path pat : GoStr)
    (hstar : containsSub pat ['*'] = false)
    (hslash : hasSuf pat ['/'] = false) :
    matchPatternU path pat = true ↔
      path = pat ∨ (∃ a, path = a ++ '/' :: pat) ∨
      (∃ a b, path = a ++ '/' :: (pat ++ '/' :: b)) := by
  unfold matchPatternU
  simp only [hslash, hstar, Bool.false_eq_true, if_false]
  simp only [Bool.or_eq_true, beq_iff_eq, hasSuf_iff, containsSub_iff]
  have hxy : ∀ a b : GoStr,
      a ++ ('/' :: pat ++ ['/']) ++ b = a ++ '/' :: (pat ++ '/' :: b) := by
    intro a b
    simp
  constructor
  · rintro ((h | ⟨t, ht⟩) | ⟨a, b, hab⟩)
    · exact Or.inl h
    · exact Or.inr (Or.inl ⟨t, ht⟩)
    · exact Or.inr (Or.inr ⟨a, b, by rw [hab, hxy]⟩)
  · rintro (h | ⟨t, ht⟩ | ⟨a, b, hab⟩)
    · exact Or.inl (Or.inl h)
    · exact Or.inl (Or.inr ⟨t, ht⟩)
    · exact Or.inr ⟨a, b, by rw [hab, hxy]⟩

/-- Witness for the amended C6 theorem at the path "a/dir/b" and the
pattern "dir" (a middle ancestor segment: matches). -/
theorem c6_plain_pattern_amended_witness :
    matchPatternU (gs "a/dir/b") (gs "dir") = true :=
  (c6_plain_pattern_amended (gs "a/dir/b") (gs "dir")
    (by decide) (by decide)).mpr
    (Or.inr (Or.inr ⟨gs "a", gs "b", rfl⟩))

end CSync
